import Mathlib

/-!
# TSAL: tick scheduler, oscillator and delay

A shallow embedding of `src/src/MidiSequencer.cpp`, `src/src/Oscillator.cpp`
and of the delay line declared in `src/include/Delay.hpp`.

Conventions of the embedding:

* `unsigned` is a natural number below `2 ^ 32`; every arithmetic result on
  it is reduced modulo `2 ^ 32`.
* `double` is a rational number and every arithmetic operation of the
  oscillator is followed by a rounding `fl`, a parameter of the definitions.
  `roundDouble` is the rounding of IEEE 754 binary64 (to nearest, ties to
  even, with subnormal numbers; a result beyond the largest `double` is not
  turned into an infinity).  Each operation is rounded on its own: no fused
  multiply-add and no extended precision.  With `fl = id` the definitions
  compute in exact arithmetic.  The oscillator is written over an arbitrary linearly ordered
  field `K` with a floor function, so that it can be run over `ℚ` and
  reasoned about over `ℝ`.
* The note conversions go through `pow` and `log` of `<cmath>`, which are
  parameters; they are stated in exact arithmetic.  So is the delay line,
  which is modelled from the spec.  The one `double` of the scheduler is
  compared with an `unsigned` only and is held as a rational.
* A member function becomes a function from the object before the call to
  the object after it (paired with the returned value when there is one).
* An operation with undefined behaviour (integral division by zero, a
  `double` to `unsigned` conversion out of range) returns `none`.
-/

set_option autoImplicit false

namespace tsal

/-- Number of values of the C++ type `unsigned`. -/
def UNSIGNED_SIZE : Nat := 2 ^ 32

/-! ## MidiSequencer -/

/-- Data members of `class MidiSequencer` (`MidiSequencer.hpp`).  The condition
variable `mCondition` is represented by what the render thread does to it: the
number of `notify_all()` calls made on it so far.  The mutex is used by
`waitForTick` only and is left out. -/
structure MidiSequencer where
  mCondition : Nat
  mTickEvents : List Nat
  mSampleTime : Nat
  mTick : Nat
  mPPQ : Nat
  mBPM : Nat
  mSamplesPerTick : ℚ
  deriving DecidableEq

/-- The loop `for (unsigned i = 0; i < mTickEvents.size(); i++)` of
`MidiSequencer::tick`, entered with loop variable `i`: an entry that the
counter has reached is erased at position `i`, and `i` is incremented after
every iteration, erased or not.  The vector is taken to hold fewer than
`2 ^ 32` entries, so that `i++` does not wrap. -/
def tickLoop (mTick : Nat) (mTickEvents : List Nat) (i : Nat) : List Nat :=
  if h : i < mTickEvents.length then
    if mTick ≥ mTickEvents[i] then
      tickLoop mTick (mTickEvents.eraseIdx i) (i + 1)
    else
      tickLoop mTick mTickEvents (i + 1)
  else
    mTickEvents
termination_by mTickEvents.length - i
decreasing_by
  · simp_wf
    rw [List.length_eraseIdx, if_pos h]
    omega
  · simp_wf
    omega

/-- The calls `mCondition.notify_all()` of the same loop: their number when
the loop is entered with loop variable `i`, one call after each erasure. -/
def tickLoopNotified (mTick : Nat) (mTickEvents : List Nat) (i : Nat) : Nat :=
  if h : i < mTickEvents.length then
    if mTick ≥ mTickEvents[i] then
      tickLoopNotified mTick (mTickEvents.eraseIdx i) (i + 1) + 1
    else
      tickLoopNotified mTick mTickEvents (i + 1)
  else
    0
termination_by mTickEvents.length - i
decreasing_by
  · simp_wf
    rw [List.length_eraseIdx, if_pos h]
    omega
  · simp_wf
    omega

/-- `MidiSequencer::tick`.  `++mSampleTime` and `mTick++` wrap at `2 ^ 32`;
the comparison with `mSamplesPerTick` converts the counter to `double`. -/
def MidiSequencer.tick (s : MidiSequencer) : MidiSequencer :=
  let sampleTime := (s.mSampleTime + 1) % UNSIGNED_SIZE
  if (sampleTime : ℚ) > s.mSamplesPerTick then
    let mTick := (s.mTick + 1) % UNSIGNED_SIZE
    { s with
      mTick := mTick
      mTickEvents := tickLoop mTick s.mTickEvents 0
      mCondition := s.mCondition + tickLoopNotified mTick s.mTickEvents 0
      mSampleTime := 0 }
  else
    { s with mSampleTime := sampleTime }

/-- `MidiSequencer::setTick`: the single assignment `mTick = tick`. -/
def MidiSequencer.setTick (s : MidiSequencer) (tick : Nat) : MidiSequencer :=
  { s with mTick := tick }

/-- `MidiSequencer::getTick`. -/
def MidiSequencer.getTick (s : MidiSequencer) : Nat :=
  s.mTick

/-- Modelled from the spec: `Util::checkParameterRange` is not among the
sources.  The spec has it hand back the value itself when it lies inside the
range and a clamped value otherwise. -/
def checkParameterRange (value : Nat) (range : Nat × Nat) : Nat :=
  if value < range.1 then range.1
  else if value > range.2 then range.2
  else value

/-- `MidiSequencer::mBPMRange`. -/
def mBPMRange : Nat × Nat := (1, 1000)

/-- `MidiSequencer::mPPQRange`. -/
def mPPQRange : Nat × Nat := (1, 1000)

/-- `MidiSequencer::setSamplesPerTick`: `96000 / ((mBPM * mPPQ) / 60)`.  All
operands are integral, `mBPM * mPPQ` is an `unsigned` product, so both
divisions are integral divisions and the quotient is converted to `double`
afterwards.  A zero divisor is undefined behaviour. -/
def MidiSequencer.setSamplesPerTick (s : MidiSequencer) : Option MidiSequencer :=
  let divisor := ((s.mBPM * s.mPPQ) % UNSIGNED_SIZE) / 60
  if divisor = 0 then none
  else some { s with mSamplesPerTick := ((96000 / divisor : Nat) : ℚ) }

/-- `MidiSequencer::setBPM`. -/
def MidiSequencer.setBPM (s : MidiSequencer) (bpm : Nat) : Option MidiSequencer :=
  MidiSequencer.setSamplesPerTick { s with mBPM := checkParameterRange bpm mBPMRange }

/-- `MidiSequencer::setPPQ`. -/
def MidiSequencer.setPPQ (s : MidiSequencer) (ppq : Nat) : Option MidiSequencer :=
  MidiSequencer.setSamplesPerTick { s with mPPQ := checkParameterRange ppq mPPQRange }

/-- The scheduler after `k` consecutive calls of `tick()`. -/
def MidiSequencer.ticks : Nat → MidiSequencer → MidiSequencer
  | 0, s => s
  | k + 1, s => (MidiSequencer.ticks k s).tick

/-! ## Rounding to `double` -/

/-- The integer nearest to `y`; of two equally near integers the even one. -/
def roundHalfEven (y : ℚ) : ℤ :=
  if y - ⌊y⌋ < 1 / 2 then ⌊y⌋
  else if y - ⌊y⌋ > 1 / 2 then ⌊y⌋ + 1
  else if ⌊y⌋ % 2 = 0 then ⌊y⌋ else ⌊y⌋ + 1

/-- Exponent of the unit in the last place of the `double`s around `x`: with
`2 ^ e ≤ |x| < 2 ^ (e + 1)` it is `e - 52`, and `-1074` for every `x` below
the smallest normal number `2 ^ (-1022)`. -/
def doubleExponent (x : ℚ) : ℤ :=
  max (Int.log 2 |x|) (-1022) - 52

/-- The `double` that an arithmetic operation with exact result `x` returns:
`x` rounded to the nearest multiple of its unit in the last place, ties to
the even significand. -/
def roundDouble (x : ℚ) : ℚ :=
  (roundHalfEven (x / 2 ^ doubleExponent x) : ℚ) * 2 ^ doubleExponent x

/-- What the proofs use of a rounding: it is monotone, symmetric, leaves
its own values and the numbers `0` and `1` as they are, doubles a value of
magnitude at most `1` exactly and subtracts `1` exactly from a value between
`1 / 2` and `2`. -/
structure IsRounding {K : Type} [LinearOrderedField K] (fl : K → K) : Prop where
  mono : Monotone fl
  idem : ∀ x : K, fl (fl x) = fl x
  neg : ∀ x : K, fl (-x) = -fl x
  zero : fl 0 = 0
  one : fl 1 = 1
  add_self : ∀ x : K, fl x = x → |x| ≤ 1 → fl (x + x) = x + x
  sub_one : ∀ x : K, fl x = x → 1 / 2 ≤ x → x ≤ 2 → fl (x - 1) = x - 1

/-! ## Oscillator -/

section Oscillator

variable {K : Type} [LinearOrderedField K] [FloorRing K]

/-- The macro `M_PI` of `<cmath>`: the `double` nearest to π, which is the
dyadic rational `884279719003555 / 2 ^ 48`. -/
def M_PI : K := 884279719003555 / 281474976710656

/-- `Oscillator::mPI2`. -/
def mPI2 : K := M_PI * 2

/-- Rounding towards zero, as done by `fmod` and by the conversion of a
`double` to an integral type. -/
def trunc (x : K) : Int :=
  if 0 ≤ x then Int.floor x else Int.ceil x

/-- The `fmod` of `<cmath>` for a non-zero divisor: `x - n * y` where `n` is
`x / y` rounded towards zero. -/
def fmod (x y : K) : K :=
  x - (trunc (x / y) : K) * y

/-- Conversion of a `double` to `unsigned`: the fractional part is dropped;
the behaviour is undefined when the result is not a value of `unsigned`. -/
def toUnsigned (x : K) : Option Nat :=
  let n := trunc x
  if 0 ≤ n ∧ n < (UNSIGNED_SIZE : Int) then some n.toNat else none

/-- `enum OscillatorMode`. -/
inductive OscillatorMode where
  | SINE
  | SAW
  | SQUARE
  | CUSTOM
  deriving DecidableEq, Repr

/-- Data members that `Oscillator.cpp` reads and writes (`Oscillator.h` is not
among the sources).  A waveform object is the function computed by its
`getWaveformSample`. -/
structure Oscillator (K : Type) where
  mSine : K → K
  mSaw : K → K
  mSquare : K → K
  mCustomWaveform : K → K
  mMode : OscillatorMode
  mGain : K
  mFrequency : K
  mPhase : K
  mPhaseStep : K
  mActive : Bool

/-- `Oscillator::polyBLEP`; `fl` rounds the result of each operation.
`t + t - t * t - 1.0` is `((t + t) - t * t) - 1.0` and `t * t + t + t + 1.0` is
`((t * t + t) + t) + 1.0`. -/
def Oscillator.polyBLEP (fl : K → K) (o : Oscillator K) (t : K) : K :=
  let dt := fl (o.mPhaseStep / mPI2)
  if t < dt then
    let t := fl (t / dt)
    fl (fl (fl (t + t) - fl (t * t)) - 1)
  else if t > fl (1 - dt) then
    let t := fl (fl (t - 1) / dt)
    fl (fl (fl (fl (t * t) + t) + t) + 1)
  else 0

/-- The `switch (mMode)` statement of `Oscillator::getOutput`: the value of
the local `value` after it.  `M_PI * 2` is a doubling and needs no rounding;
`fmod` is exact. -/
def Oscillator.switchValue (fl : K → K) (o : Oscillator K) : K :=
  let t := fl (o.mPhase / (M_PI * 2))
  match o.mMode with
  | .SINE => o.mSine o.mPhase
  | .SAW => fl (o.mSaw o.mPhase - o.polyBLEP fl t)
  | .SQUARE =>
    fl (fl (o.mSquare o.mPhase + o.polyBLEP fl t) - o.polyBLEP fl (fmod (fl (t + 0.5)) 1))
  | .CUSTOM => o.mCustomWaveform o.mPhase

/-- `Oscillator::getOutput`: the returned sample and the oscillator after the
call.  `SCALE` is a constant defined outside the sources. -/
def Oscillator.getOutput (fl : K → K) (SCALE : K) (o : Oscillator K) : K × Oscillator K :=
  if !o.mActive then (0, o)
  else
    let value := o.switchValue fl
    let phase := fl (o.mPhase + o.mPhaseStep)
    let phase := if phase ≥ mPI2 then 0 else phase
    (fl (fl (value * SCALE) * o.mGain), { o with mPhase := phase })

/-- `Oscillator::getNoteFromFrequency`; `log` is the natural logarithm of
`<cmath>`.  The `double` result is converted to the return type `unsigned`. -/
def getNoteFromFrequency (log : K → K) (frequency : K) : Option Nat :=
  toUnsigned ((12 / log 2) * log (frequency / 27.5) + 21)

/-- `Oscillator::getFrequencyFromNote`; `pow` is that of `<cmath>`.  The
difference `note - 21` is computed in `unsigned`, so it wraps, and is
converted to `double` for the division by `12.0`. -/
def getFrequencyFromNote (pow : K → K → K) (note : Nat) : K :=
  27.5 * pow 2 ((((note + UNSIGNED_SIZE - 21) % UNSIGNED_SIZE : Nat) : K) / 12)

/-- `Oscillator::setFrequency`; `sampleRate` is the value of
`Mixer::getSampleRate()`. -/
def Oscillator.setFrequency (fl : K → K) (sampleRate : Nat) (o : Oscillator K)
    (frequency : K) : Oscillator K :=
  { o with
    mFrequency := frequency
    mPhaseStep := fl (fl (frequency * mPI2) / (sampleRate : K)) }

/-- `Oscillator::setNote`. -/
def Oscillator.setNote (fl : K → K) (pow : K → K → K) (sampleRate : Nat) (o : Oscillator K)
    (note : Nat) : Oscillator K :=
  o.setFrequency fl sampleRate (getFrequencyFromNote pow note)

/-- `Oscillator::setGain`. -/
def Oscillator.setGain (fl : K → K) (o : Oscillator K) (gain : K) : Oscillator K :=
  { o with mGain := fl (0.5 * gain) }

/-- `Oscillator::setMode`. -/
def Oscillator.setMode (o : Oscillator K) (mode : OscillatorMode) : Oscillator K :=
  { o with mMode := mode }

/-- `Oscillator::setWaveform`. -/
def Oscillator.setWaveform (o : Oscillator K) (waveform : K → K) : Oscillator K :=
  Oscillator.setMode { o with mCustomWaveform := waveform } .CUSTOM

/-- `Oscillator::getFrequency`. -/
def Oscillator.getFrequency (o : Oscillator K) : K :=
  o.mFrequency

/-- `Oscillator::getNote`. -/
def Oscillator.getNote (log : K → K) (o : Oscillator K) : Option Nat :=
  getNoteFromFrequency log o.mFrequency

/-- `Oscillator::getGain`. -/
def Oscillator.getGain (o : Oscillator K) : K :=
  o.mGain

/-- Modelled from the spec: the setter of the `active` flag is inherited from
a class that is not among the sources.  Activating or deactivating changes
that flag and nothing else. -/
def Oscillator.setActive (o : Oscillator K) (active : Bool) : Oscillator K :=
  { o with mActive := active }

/-- The oscillator after `n` consecutive calls of `getOutput`, and the
samples they returned, first call first. -/
def Oscillator.getOutputs (fl : K → K) (SCALE : K) :
    Nat → Oscillator K → List K × Oscillator K
  | 0, o => ([], o)
  | n + 1, o =>
    let first := o.getOutput fl SCALE
    let rest := Oscillator.getOutputs fl SCALE n first.2
    (first.1 :: rest.1, rest.2)

/-- The oscillator after one call of `getOutput` per entry of the list; before
each call the mode and the active flag are set to the values of the entry. -/
def Oscillator.getOutputsIn (fl : K → K) (SCALE : K) :
    List (OscillatorMode × Bool) → Oscillator K → Oscillator K
  | [], o => o
  | (mode, active) :: rest, o =>
    Oscillator.getOutputsIn fl SCALE rest
      (((o.setMode mode).setActive active).getOutput fl SCALE).2

end Oscillator

/-! ## Delay -/

section Delay

variable {K : Type} [LinearOrderedField K]

/-- Data members of `class Delay` (`Delay.hpp`) that take part in a call of
`getOutput`; the buffer object is the list of the samples it holds. -/
structure Delay (K : Type) where
  mBuffer : List K
  mCounter : Nat
  mDelay : Nat
  mFeedback : K

/-- Modelled from the spec: `Delay::getOutput` is declared in `Delay.hpp` and
defined in a file that is not among the sources.  The spec has it read
`buffered = buffer[cursor]`, write `buffer[cursor] = input + feedback·buffered`,
advance the cursor modulo the configured delay length and return `buffered`;
the upstream sample is a parameter of the step.  (A cursor outside the buffer
reads `0` and writes nothing; the cursor invariant keeps it inside.) -/
def Delay.getOutput (input : K) (d : Delay K) : K × Delay K :=
  let buffered := d.mBuffer.getD d.mCounter 0
  (buffered,
    { d with
      mBuffer := d.mBuffer.set d.mCounter (input + d.mFeedback * buffered)
      mCounter := (d.mCounter + 1) % d.mDelay })

/-- The delay after its first `n` calls of `getOutput`, call number `i`
(counted from `0`) being fed the sample `x i`. -/
def Delay.after (x : Nat → K) : Nat → Delay K → Delay K
  | 0, d => d
  | n + 1, d => (Delay.getOutput (x n) (Delay.after x n d)).2

/-- The result of call number `n` (counted from `0`) of `getOutput`. -/
def Delay.outputAt (x : Nat → K) (n : Nat) (d : Delay K) : K :=
  (Delay.getOutput (x n) (Delay.after x n d)).1

end Delay

/-! ## Auxiliary definitions -/

/-- What one pass of `tickLoop` does to the part of the vector from the loop
variable onwards: after an erasure the entry that moved into the erased
position is stepped over without being tested. -/
def tickLoopFrom (mTick : Nat) : List Nat → List Nat
  | [] => []
  | [x] => if mTick ≥ x then [] else [x]
  | x :: y :: rest =>
    if mTick ≥ x then y :: tickLoopFrom mTick rest
    else x :: tickLoopFrom mTick (y :: rest)

/-- Two threads wait for tick `1`; the render thread is one sample short of
the end of tick `0` (default tempo: 240 samples per tick). -/
def twoWaiters : MidiSequencer :=
  { mCondition := 0
    mTickEvents := [1, 1]
    mSampleTime := 240
    mTick := 0
    mPPQ := 240
    mBPM := 100
    mSamplesPerTick := 240 }

/-- A scheduler at the default tempo (`mBPM = 100`, `mPPQ = 240`, for which
`setSamplesPerTick` gives 240), at the start of tick `0`, nobody waiting. -/
def defaultSequencer : MidiSequencer :=
  { mCondition := 0
    mTickEvents := []
    mSampleTime := 0
    mTick := 0
    mPPQ := 240
    mBPM := 100
    mSamplesPerTick := 240 }

/-- A voice over the rationals: a rising ramp as sawtooth, a two-level
square, a parabolic arch in place of the sine, a quarter of a turn per sample
(`dt = 1 / 4`). -/
def sampleVoice : Oscillator ℚ :=
  { mSine := fun p => p * (mPI2 - p)
    mSaw := fun p => p / M_PI - 1
    mSquare := fun p => if p < M_PI then 1 else -1
    mCustomWaveform := fun p => p
    mMode := .SAW
    mGain := 1 / 4
    mFrequency := 12000
    mPhase := 1
    mPhaseStep := mPI2 / 4
    mActive := true }

/-- A voice in SQUARE mode one unit in the last place short of half a turn:
the state of the seventh call after `setFrequency(4000)` at 48 kHz, whose
phase step is `4716158501352293 / 2 ^ 53`. -/
def halfTurnVoice : Oscillator ℚ :=
  { sampleVoice with
    mMode := .SQUARE
    mFrequency := 4000
    mPhase := M_PI - 1 / 2 ^ 51
    mPhaseStep := 4716158501352293 / 2 ^ 53 }

/-- The state of the third call after `setFrequency(16000)` at 48 kHz: the
phase step is `s = 4716158501352293 / 2 ^ 51`, the phase is `2 s`, and
`3 s = mPI2 - 1 / 2 ^ 51`. -/
def thirdCallVoice : Oscillator ℚ :=
  { sampleVoice with
    mFrequency := 16000
    mPhase := 9432317002704586 / 2 ^ 51
    mPhaseStep := 4716158501352293 / 2 ^ 51 }

/-- The comb-filter recurrence: `y n = 0` for `n < D` and
`y n = x (n - D) + g * y (n - D)` from `D` on. -/
def combOutput {K : Type} [LinearOrderedField K] (g : K) (D : Nat) (x : Nat → K) (m : Nat) : K :=
  if _h : m < D ∨ D = 0 then 0
  else x (m - D) + g * combOutput g D x (m - D)
termination_by m
decreasing_by omega

/-- The unit impulse: `1` at sample `0`, `0` at every later sample. -/
def unitImpulse {K : Type} [LinearOrderedField K] (n : Nat) : K :=
  if n = 0 then 1 else 0

/-- A delay line of length `D` as it is after construction or reset: buffer
of `D` zeros, cursor `0`. -/
def freshDelay {K : Type} [LinearOrderedField K] (D : Nat) (feedback : K) : Delay K :=
  { mBuffer := List.replicate D 0
    mCounter := 0
    mDelay := D
    mFeedback := feedback }

/-- A scheduler whose tick counter holds the largest `unsigned` value and
whose next `tick()` call completes a tick. -/
def lastTick : MidiSequencer :=
  { mCondition := 0
    mTickEvents := []
    mSampleTime := 240
    mTick := 4294967295
    mPPQ := 240
    mBPM := 100
    mSamplesPerTick := 240 }

/-! ## Lemmas -/

theorem tickLoop_append (mTick : Nat) (suf pre : List Nat) :
    tickLoop mTick (pre ++ suf) pre.length = pre ++ tickLoopFrom mTick suf := by
  induction suf using tickLoopFrom.induct mTick generalizing pre with
  | case1 =>
    rw [tickLoop]
    simp [tickLoopFrom]
  | case2 x hx =>
    rw [tickLoop]
    have hlt : pre.length < (pre ++ [x]).length := by simp
    have hget : (pre ++ [x])[pre.length] = x := by simp
    rw [dif_pos hlt, hget, if_pos hx]
    have herase : (pre ++ [x]).eraseIdx pre.length = pre := by
      rw [List.eraseIdx_append_of_length_le (le_refl _)]
      simp
    rw [herase, tickLoop]
    simp [tickLoopFrom, hx]
  | case3 x hx =>
    rw [tickLoop]
    have hlt : pre.length < (pre ++ [x]).length := by simp
    have hget : (pre ++ [x])[pre.length] = x := by simp
    rw [dif_pos hlt, hget, if_neg hx, tickLoop]
    simp [tickLoopFrom, hx]
  | case4 x y rest hx ih =>
    rw [tickLoop]
    have hlt : pre.length < (pre ++ x :: y :: rest).length := by simp
    have hget : (pre ++ x :: y :: rest)[pre.length] = x := by
      simp [List.getElem_append_right]
    rw [dif_pos hlt, hget, if_pos hx]
    have herase : (pre ++ x :: y :: rest).eraseIdx pre.length = (pre ++ [y]) ++ rest := by
      rw [List.eraseIdx_append_of_length_le (le_refl _)]
      simp
    have hlen : pre.length + 1 = (pre ++ [y]).length := by simp
    rw [herase, hlen, ih]
    simp [tickLoopFrom, hx]
  | case5 x y rest hx ih =>
    rw [tickLoop]
    have hlt : pre.length < (pre ++ x :: y :: rest).length := by simp
    have hget : (pre ++ x :: y :: rest)[pre.length] = x := by
      simp [List.getElem_append_right]
    rw [dif_pos hlt, hget, if_neg hx]
    have hsplit : pre ++ x :: y :: rest = (pre ++ [x]) ++ y :: rest := by simp
    have hlen : pre.length + 1 = (pre ++ [x]).length := by simp
    rw [hsplit, hlen, ih]
    simp [tickLoopFrom, hx]

/-- A whole pass of the loop of `tick`, started at `i = 0`. -/
theorem tickLoop_zero (mTick : Nat) (events : List Nat) :
    tickLoop mTick events 0 = tickLoopFrom mTick events := by
  simpa using tickLoop_append mTick events []

example : tickLoop 1 [1, 1] 0 = [1] := by
  rw [tickLoop_zero]; decide

example : tickLoop 1 [1, 1] 0 = [1] := by
  simp [tickLoop]

/-- The two outcomes of `tick()`: either the sample counter advances and
nothing else changes, or the tick counter advances and the sample counter is
reset. -/
theorem tick_cases (s : MidiSequencer) :
    (s.tick.mSampleTime = (s.mSampleTime + 1) % UNSIGNED_SIZE ∧ s.tick.mTick = s.mTick ∧
        s.tick.mTickEvents = s.mTickEvents) ∨
      (s.tick.mSampleTime = 0 ∧ s.tick.mTick = (s.mTick + 1) % UNSIGNED_SIZE) := by
  unfold MidiSequencer.tick
  simp only
  split
  · exact Or.inr ⟨rfl, rfl⟩
  · exact Or.inl ⟨rfl, rfl, rfl⟩

/-- In either outcome of `tick()` the tick counter is the old one or its
successor modulo `2 ^ 32`. -/
theorem tick_mTick_cases (s : MidiSequencer) :
    s.tick.mTick = s.mTick ∨ s.tick.mTick = (s.mTick + 1) % UNSIGNED_SIZE := by
  rcases tick_cases s with h | h
  · exact Or.inl h.2.1
  · exact Or.inr h.2

/-- A call of `tick()` on which the incremented sample counter exceeds
`mSamplesPerTick`. -/
theorem tick_of_exceeds (s : MidiSequencer)
    (h : (((s.mSampleTime + 1) % UNSIGNED_SIZE : Nat) : ℚ) > s.mSamplesPerTick) :
    s.tick.mTick = (s.mTick + 1) % UNSIGNED_SIZE ∧ s.tick.mSampleTime = 0 ∧
      s.tick.mSamplesPerTick = s.mSamplesPerTick ∧
      s.tick.mTickEvents = tickLoop ((s.mTick + 1) % UNSIGNED_SIZE) s.mTickEvents 0 := by
  unfold MidiSequencer.tick
  simp only
  rw [if_pos h]
  exact ⟨rfl, rfl, rfl, rfl⟩

/-- A call of `tick()` on which it does not. -/
theorem tick_of_not_exceeds (s : MidiSequencer)
    (h : ¬ (((s.mSampleTime + 1) % UNSIGNED_SIZE : Nat) : ℚ) > s.mSamplesPerTick) :
    s.tick.mTick = s.mTick ∧ s.tick.mSampleTime = (s.mSampleTime + 1) % UNSIGNED_SIZE ∧
      s.tick.mSamplesPerTick = s.mSamplesPerTick ∧ s.tick.mTickEvents = s.mTickEvents := by
  unfold MidiSequencer.tick
  simp only
  rw [if_neg h]
  exact ⟨rfl, rfl, rfl, rfl⟩

theorem succ_div_mod_of_eq (k s : Nat) (h : k % (s + 1) = s) :
    (k + 1) / (s + 1) = k / (s + 1) + 1 ∧ (k + 1) % (s + 1) = 0 := by
  have hk := Nat.div_add_mod k (s + 1)
  rw [h] at hk
  refine (Nat.div_mod_unique (by omega)).mpr ⟨?_, by omega⟩
  rw [Nat.mul_add, Nat.mul_one]
  omega

theorem succ_div_mod_of_lt (k s : Nat) (h : k % (s + 1) < s) :
    (k + 1) / (s + 1) = k / (s + 1) ∧ (k + 1) % (s + 1) = k % (s + 1) + 1 := by
  have hk := Nat.div_add_mod k (s + 1)
  refine (Nat.div_mod_unique (by omega)).mpr ⟨?_, by omega⟩
  omega

/-- Counters after `k` calls of `tick()` from a state with `sampleTime = 0`
and a whole number `s` of samples per tick, as long as no counter wraps. -/
theorem ticks_counters (st : MidiSequencer) (s : Nat) (hspt : st.mSamplesPerTick = (s : ℚ))
    (hzero : st.mSampleTime = 0) (k : Nat) (hsample : min k (s + 1) < UNSIGNED_SIZE)
    (htick : st.mTick + k / (s + 1) < UNSIGNED_SIZE) :
    (st.ticks k).mTick = st.mTick + k / (s + 1) ∧ (st.ticks k).mSampleTime = k % (s + 1) ∧
      (st.ticks k).mSamplesPerTick = (s : ℚ) := by
  induction k with
  | zero => simp [MidiSequencer.ticks, hspt, hzero]
  | succ k ih =>
    have hr : k % (s + 1) < s + 1 := Nat.mod_lt _ (by omega)
    have hrk : k % (s + 1) ≤ k := Nat.mod_le _ _
    have hdiv : k / (s + 1) ≤ (k + 1) / (s + 1) := Nat.div_le_div_right (by omega)
    obtain ⟨ih1, ih2, ih3⟩ := ih (by omega) (by omega)
    have hnowrap : ((st.ticks k).mSampleTime + 1) % UNSIGNED_SIZE = k % (s + 1) + 1 := by
      rw [ih2]
      exact Nat.mod_eq_of_lt (by omega)
    simp only [MidiSequencer.ticks]
    by_cases hfull : k % (s + 1) = s
    · obtain ⟨hq, hm⟩ := succ_div_mod_of_eq k s hfull
      have hex : ((((st.ticks k).mSampleTime + 1) % UNSIGNED_SIZE : Nat) : ℚ) >
          (st.ticks k).mSamplesPerTick := by
        rw [hnowrap, ih3, hfull]
        exact_mod_cast Nat.lt_succ_self s
      obtain ⟨h1, h2, h3, -⟩ := tick_of_exceeds _ hex
      refine ⟨?_, by rw [h2, hm], by rw [h3, ih3]⟩
      rw [h1, ih1, hq, Nat.mod_eq_of_lt (by omega)]
      omega
    · obtain ⟨hq, hm⟩ := succ_div_mod_of_lt k s (by omega)
      have hex : ¬ ((((st.ticks k).mSampleTime + 1) % UNSIGNED_SIZE : Nat) : ℚ) >
          (st.ticks k).mSamplesPerTick := by
        rw [hnowrap, ih3, not_lt]
        exact_mod_cast (by omega : k % (s + 1) + 1 ≤ s)
      obtain ⟨h1, h2, h3, -⟩ := tick_of_not_exceeds _ hex
      exact ⟨by rw [h1, ih1, hq], by rw [h2, hnowrap, hm], by rw [h3, ih3]⟩

theorem tickLoopFrom_sublist (mTick : Nat) (events : List Nat) :
    (tickLoopFrom mTick events).Sublist events := by
  induction events using tickLoopFrom.induct mTick with
  | case1 => simp [tickLoopFrom]
  | case2 x hx => simp [tickLoopFrom, hx]
  | case3 x hx => simp [tickLoopFrom, hx]
  | case4 x y rest hx ih =>
    rw [tickLoopFrom, if_pos hx]
    exact List.Sublist.cons x (List.Sublist.cons₂ y ih)
  | case5 x y rest hx ih =>
    rw [tickLoopFrom, if_neg hx]
    exact List.Sublist.cons₂ x ih

/-- The entries that a pass of the loop takes out are all reached by the
counter. -/
theorem tickLoopFrom_removed (mTick : Nat) (events : List Nat) :
    ∃ removed : List Nat,
      events.Perm (tickLoopFrom mTick events ++ removed) ∧ ∀ x ∈ removed, x ≤ mTick := by
  induction events using tickLoopFrom.induct mTick with
  | case1 => exact ⟨[], by simp [tickLoopFrom]⟩
  | case2 x hx => exact ⟨[x], by simp [tickLoopFrom, hx], by simpa using hx⟩
  | case3 x hx => exact ⟨[], by simp [tickLoopFrom, hx]⟩
  | case4 x y rest hx ih =>
    obtain ⟨removed, hperm, hle⟩ := ih
    refine ⟨x :: removed, ?_, ?_⟩
    · rw [tickLoopFrom, if_pos hx]
      have h1 : (x :: y :: rest).Perm (y :: x :: rest) := List.Perm.swap y x rest
      have h2 : (y :: x :: rest).Perm (y :: x :: (tickLoopFrom mTick rest ++ removed)) :=
        (hperm.cons x).cons y
      have h3 : (x :: (tickLoopFrom mTick rest ++ removed)).Perm
          (tickLoopFrom mTick rest ++ x :: removed) := List.perm_middle.symm
      exact h1.trans (h2.trans (h3.cons y))
    · intro z hz
      rcases List.mem_cons.mp hz with rfl | hz
      · exact hx
      · exact hle z hz
  | case5 x y rest hx ih =>
    obtain ⟨removed, hperm, hle⟩ := ih
    refine ⟨removed, ?_, hle⟩
    rw [tickLoopFrom, if_neg hx]
    exact hperm.cons x

/-- The loop of `tick()` calls `notify_all()` once for every entry it erases. -/
theorem tickLoopNotified_add_length (mTick : Nat) (events : List Nat) (i : Nat) :
    tickLoopNotified mTick events i + (tickLoop mTick events i).length = events.length := by
  induction events, i using tickLoop.induct mTick with
  | case1 events i h hx ih =>
    rw [tickLoopNotified, tickLoop, dif_pos h, dif_pos h, if_pos hx, if_pos hx]
    rw [List.length_eraseIdx, if_pos h] at ih
    omega
  | case2 events i h hx ih =>
    rw [tickLoopNotified, tickLoop, dif_pos h, dif_pos h, if_neg hx, if_neg hx]
    exact ih
  | case3 events i h =>
    rw [tickLoopNotified, tickLoop, dif_neg h, dif_neg h]
    omega

/-- What `tick()` does to the condition variable: nothing on a call that only
counts a sample, one `notify_all()` per erased wait-target otherwise. -/
theorem tick_mCondition (s : MidiSequencer) :
    s.tick.mCondition + s.tick.mTickEvents.length = s.mCondition + s.mTickEvents.length := by
  unfold MidiSequencer.tick
  simp only
  split
  · have := tickLoopNotified_add_length ((s.mTick + 1) % UNSIGNED_SIZE) s.mTickEvents 0
    simp only
    omega
  · rfl

/-! ### Rounding -/

theorem roundHalfEven_intCast (n : ℤ) : roundHalfEven (n : ℚ) = n := by
  unfold roundHalfEven
  rw [Int.floor_intCast]
  simp

theorem roundHalfEven_floor_le (y : ℚ) : ⌊y⌋ ≤ roundHalfEven y := by
  unfold roundHalfEven
  split_ifs <;> omega

theorem roundHalfEven_le_floor_add_one (y : ℚ) : roundHalfEven y ≤ ⌊y⌋ + 1 := by
  unfold roundHalfEven
  split_ifs <;> omega

theorem roundHalfEven_mono {y z : ℚ} (h : y ≤ z) : roundHalfEven y ≤ roundHalfEven z := by
  rcases (Int.floor_mono h).lt_or_eq with hlt | heq
  · have h1 := roundHalfEven_le_floor_add_one y
    have h2 := roundHalfEven_floor_le z
    omega
  · unfold roundHalfEven
    rw [← heq]
    split_ifs <;> first | omega | (exfalso; linarith)

/-- Position of `y` relative to the integer `m` decides the rounding. -/
theorem roundHalfEven_eq_of_lt (y : ℚ) (m : ℤ) (h1 : (m : ℚ) - 1 / 2 < y)
    (h2 : y < (m : ℚ) + 1 / 2) : roundHalfEven y = m := by
  have hf1 := Int.floor_le y
  have hf2 := Int.lt_floor_add_one y
  unfold roundHalfEven
  by_cases hc : ⌊y⌋ = m
  · rw [hc] at hf1 hf2 ⊢
    rw [if_pos (by linarith)]
  · have hc2 : ⌊y⌋ = m - 1 := by
      have ha : (m : ℚ) - 1 < (⌊y⌋ : ℚ) + 1 := by linarith
      have hb : (⌊y⌋ : ℚ) < (m : ℚ) + 1 / 2 := by linarith
      have ha' : m - 1 < ⌊y⌋ + 1 := by exact_mod_cast ha
      have hb' : ⌊y⌋ < m + 1 := by
        have : (⌊y⌋ : ℚ) < ((m + 1 : ℤ) : ℚ) := by push_cast; linarith
        exact_mod_cast this
      omega
    rw [hc2]
    push_cast
    rw [if_neg (by linarith), if_pos (by linarith)]
    ring

theorem roundHalfEven_tie (m : ℤ) :
    roundHalfEven ((m : ℚ) + 1 / 2) = if m % 2 = 0 then m else m + 1 := by
  have hfloor : ⌊(m : ℚ) + 1 / 2⌋ = m := by
    rw [Int.floor_eq_iff]
    constructor <;> norm_num
  unfold roundHalfEven
  rw [hfloor]
  norm_num

theorem roundHalfEven_neg (y : ℚ) : roundHalfEven (-y) = -roundHalfEven y := by
  by_cases hint : (⌊y⌋ : ℚ) = y
  · rw [← hint, ← Int.cast_neg, roundHalfEven_intCast, roundHalfEven_intCast]
  · have hf1 := Int.floor_le y
    have hf2 := Int.lt_floor_add_one y
    have hlt : (⌊y⌋ : ℚ) < y := lt_of_le_of_ne hf1 hint
    have hfloor : ⌊-y⌋ = -⌊y⌋ - 1 := by
      rw [Int.floor_eq_iff]
      push_cast
      constructor <;> linarith
    unfold roundHalfEven
    rw [hfloor]
    push_cast
    split_ifs <;> first | omega | (exfalso; linarith)


theorem two_zpow_pos (e : ℤ) : (0 : ℚ) < 2 ^ e := zpow_pos (by norm_num) e

theorem log_spec (x : ℚ) (hx : x ≠ 0) :
    (2 : ℚ) ^ Int.log 2 |x| ≤ |x| ∧ |x| < (2 : ℚ) ^ (Int.log 2 |x| + 1) := by
  have h1 := Int.zpow_log_le_self (b := 2) (by norm_num) (abs_pos.mpr hx)
  have h2 := Int.lt_zpow_succ_log_self (b := 2) (by norm_num) |x|
  exact ⟨by exact_mod_cast h1, by exact_mod_cast h2⟩

theorem doubleExponent_ge (x : ℚ) : -1074 ≤ doubleExponent x := by
  unfold doubleExponent
  have := le_max_right (Int.log 2 |x|) (-1022)
  omega

theorem doubleExponent_neg (x : ℚ) : doubleExponent (-x) = doubleExponent x := by
  unfold doubleExponent
  rw [abs_neg]

/-- Every number is below `2 ^ 53` units in the last place of its binade. -/
theorem abs_lt_two_zpow (x : ℚ) : |x| < (2 : ℚ) ^ (doubleExponent x + 53) := by
  by_cases hx : x = 0
  · rw [hx, abs_zero]
    exact two_zpow_pos _
  · have h := (log_spec x hx).2
    refine lt_of_lt_of_le h (zpow_le_zpow_right₀ (by norm_num) ?_)
    unfold doubleExponent
    have := le_max_left (Int.log 2 |x|) (-1022)
    omega

theorem roundDouble_neg (x : ℚ) : roundDouble (-x) = -roundDouble x := by
  unfold roundDouble
  rw [doubleExponent_neg, neg_div, roundHalfEven_neg]
  push_cast
  ring

theorem roundDouble_zero : roundDouble 0 = 0 := by
  unfold roundDouble
  rw [zero_div]
  have := roundHalfEven_intCast 0
  simp only [Int.cast_zero] at this
  rw [this]
  simp

theorem roundDouble_nonneg {x : ℚ} (hx : 0 ≤ x) : 0 ≤ roundDouble x := by
  unfold roundDouble
  have hq := two_zpow_pos (doubleExponent x)
  have h0 : roundHalfEven ((0 : ℤ) : ℚ) ≤ roundHalfEven (x / 2 ^ doubleExponent x) :=
    roundHalfEven_mono (by simpa using div_nonneg hx (le_of_lt hq))
  rw [roundHalfEven_intCast] at h0
  have : (0 : ℚ) ≤ (roundHalfEven (x / 2 ^ doubleExponent x) : ℚ) := by exact_mod_cast h0
  exact mul_nonneg this (le_of_lt hq)

/-- The rounded significand has at most 53 bits. -/
theorem roundHalfEven_le_two_pow (x : ℚ) :
    roundHalfEven (x / 2 ^ doubleExponent x) ≤ 2 ^ 53 := by
  have hq := two_zpow_pos (doubleExponent x)
  have hlt : x / 2 ^ doubleExponent x ≤ (((2 : ℤ) ^ 53 : ℤ) : ℚ) := by
    rw [div_le_iff₀ hq]
    have h := abs_lt_two_zpow x
    rw [zpow_add₀ (by norm_num : (2 : ℚ) ≠ 0)] at h
    have hx : x ≤ |x| := le_abs_self x
    push_cast
    have h53 : (2 : ℚ) ^ (53 : ℤ) = 2 ^ 53 := by norm_num
    rw [h53] at h
    linarith [mul_comm ((2 : ℚ) ^ doubleExponent x) ((2 : ℚ) ^ 53)]
  have := roundHalfEven_mono hlt
  rwa [roundHalfEven_intCast] at this

theorem roundDouble_le_two_zpow (x : ℚ) : roundDouble x ≤ (2 : ℚ) ^ (doubleExponent x + 53) := by
  unfold roundDouble
  have hq := two_zpow_pos (doubleExponent x)
  have hm : (roundHalfEven (x / 2 ^ doubleExponent x) : ℚ) ≤ (2 : ℚ) ^ (53 : ℤ) := by
    have := roundHalfEven_le_two_pow x
    have h : (roundHalfEven (x / 2 ^ doubleExponent x) : ℚ) ≤ (((2 : ℤ) ^ 53 : ℤ) : ℚ) := by
      exact_mod_cast this
    norm_num at h ⊢
    exact h
  rw [zpow_add₀ (by norm_num : (2 : ℚ) ≠ 0), mul_comm ((2 : ℚ) ^ doubleExponent x)]
  exact mul_le_mul_of_nonneg_right hm (le_of_lt hq)

/-- A positive number of a normal binade is rounded to a number of the closure
of that binade. -/
theorem two_zpow_le_roundDouble (x : ℚ) (hx : 0 < x) (hnormal : -1022 ≤ Int.log 2 |x|) :
    (2 : ℚ) ^ (doubleExponent x + 52) ≤ roundDouble x := by
  have hE : doubleExponent x + 52 = Int.log 2 |x| := by
    unfold doubleExponent
    rw [max_eq_left hnormal]
    ring
  have hq := two_zpow_pos (doubleExponent x)
  have hlow : (2 : ℚ) ^ (doubleExponent x + 52) ≤ x := by
    rw [hE]
    exact le_trans (log_spec x (ne_of_gt hx)).1 (le_of_eq (abs_of_pos hx))
  have hdiv : (((2 : ℤ) ^ 52 : ℤ) : ℚ) ≤ x / 2 ^ doubleExponent x := by
    rw [le_div_iff₀ hq]
    rw [zpow_add₀ (by norm_num : (2 : ℚ) ≠ 0)] at hlow
    have h52 : (2 : ℚ) ^ (52 : ℤ) = 2 ^ 52 := by norm_num
    rw [h52] at hlow
    push_cast
    linarith [mul_comm ((2 : ℚ) ^ doubleExponent x) ((2 : ℚ) ^ 52)]
  have hm := roundHalfEven_mono hdiv
  rw [roundHalfEven_intCast] at hm
  have hm' : (2 : ℚ) ^ (52 : ℤ) ≤ (roundHalfEven (x / 2 ^ doubleExponent x) : ℚ) := by
    have h : (((2 : ℤ) ^ 52 : ℤ) : ℚ) ≤ (roundHalfEven (x / 2 ^ doubleExponent x) : ℚ) := by
      exact_mod_cast hm
    norm_num at h ⊢
    exact h
  unfold roundDouble
  rw [zpow_add₀ (by norm_num : (2 : ℚ) ≠ 0), mul_comm ((2 : ℚ) ^ doubleExponent x)]
  exact mul_le_mul_of_nonneg_right hm' (le_of_lt hq)

theorem doubleExponent_mono {x y : ℚ} (hx : 0 < x) (h : x ≤ y) :
    doubleExponent x ≤ doubleExponent y := by
  unfold doubleExponent
  have hy : 0 < y := lt_of_lt_of_le hx h
  have := Int.log_mono_right (b := 2) (abs_pos.mpr (ne_of_gt hx))
    (by rw [abs_of_pos hx, abs_of_pos hy]; exact h : |x| ≤ |y|)
  have := max_le_max_right (-1022) this
  omega

theorem roundDouble_mono_of_pos {x y : ℚ} (hx : 0 < x) (h : x ≤ y) :
    roundDouble x ≤ roundDouble y := by
  have hy : 0 < y := lt_of_lt_of_le hx h
  rcases (doubleExponent_mono hx h).lt_or_eq with hlt | heq
  · have hnormal : -1022 ≤ Int.log 2 |y| := by
      by_contra hc
      have h1 : doubleExponent y = -1074 := by
        unfold doubleExponent
        rw [max_eq_right (by omega)]
        norm_num
      have := doubleExponent_ge x
      omega
    have h1 := roundDouble_le_two_zpow x
    have h2 := two_zpow_le_roundDouble y hy hnormal
    have h3 : (2 : ℚ) ^ (doubleExponent x + 53) ≤ 2 ^ (doubleExponent y + 52) :=
      zpow_le_zpow_right₀ (by norm_num) (by omega)
    linarith
  · unfold roundDouble
    rw [heq]
    have hq := two_zpow_pos (doubleExponent y)
    have hm := roundHalfEven_mono (div_le_div_of_nonneg_right h (le_of_lt hq))
    have hm' : (roundHalfEven (x / 2 ^ doubleExponent y) : ℚ) ≤
        (roundHalfEven (y / 2 ^ doubleExponent y) : ℚ) := by exact_mod_cast hm
    exact mul_le_mul_of_nonneg_right hm' (le_of_lt hq)

theorem roundDouble_monotone : Monotone roundDouble := by
  intro x y h
  rcases lt_trichotomy x 0 with hx | hx | hx
  · rcases lt_or_le y 0 with hy | hy
    · have := roundDouble_mono_of_pos (neg_pos.mpr hy) (neg_le_neg h)
      rw [roundDouble_neg, roundDouble_neg] at this
      linarith
    · have h1 := roundDouble_nonneg (le_of_lt (neg_pos.mpr hx))
      rw [roundDouble_neg] at h1
      have h2 := roundDouble_nonneg hy
      linarith
  · rw [hx, roundDouble_zero]
    exact roundDouble_nonneg (hx ▸ h)
  · exact roundDouble_mono_of_pos hx h


/-- An integer with fewer than 54 bits times a power of two not below the
smallest subnormal is a `double`. -/
theorem roundDouble_int_mul_of_lt (n j : ℤ) (hj : -1074 ≤ j) (hn : |n| < 2 ^ 53) :
    roundDouble ((n : ℚ) * 2 ^ j) = (n : ℚ) * 2 ^ j := by
  by_cases hn0 : n = 0
  · rw [hn0]
    simp [roundDouble_zero]
  have hpos := two_zpow_pos j
  have hx : (n : ℚ) * 2 ^ j ≠ 0 := mul_ne_zero (by exact_mod_cast hn0) (ne_of_gt hpos)
  have habs : |(n : ℚ) * 2 ^ j| < (2 : ℚ) ^ (53 + j) := by
    rw [abs_mul, abs_of_pos hpos, zpow_add₀ (by norm_num : (2 : ℚ) ≠ 0)]
    have h : |(n : ℚ)| < (2 : ℚ) ^ (53 : ℤ) := by
      have : ((|n| : ℤ) : ℚ) < (((2 : ℤ) ^ 53 : ℤ) : ℚ) := by exact_mod_cast hn
      rw [Int.cast_abs] at this
      norm_num at this ⊢
      exact this
    exact mul_lt_mul_of_pos_right h hpos
  have hlog : Int.log 2 |(n : ℚ) * 2 ^ j| < 53 + j := by
    have := (Int.lt_zpow_iff_log_lt (b := 2) (by norm_num) (abs_pos.mpr hx)).mp
      (by exact_mod_cast habs)
    exact this
  have hE : doubleExponent ((n : ℚ) * 2 ^ j) ≤ j := by
    unfold doubleExponent
    have := max_le (by omega : Int.log 2 |(n : ℚ) * 2 ^ j| ≤ 52 + j) (by omega : -1022 ≤ 52 + j)
    omega
  unfold roundDouble
  generalize doubleExponent ((n : ℚ) * 2 ^ j) = E at hE
  obtain ⟨k, hk⟩ : ∃ k : ℕ, (k : ℤ) = j - E := ⟨(j - E).toNat, Int.toNat_of_nonneg (by omega)⟩
  have hsplit : (2 : ℚ) ^ j = 2 ^ k * 2 ^ E := by
    rw [← zpow_natCast, ← zpow_add₀ (by norm_num : (2 : ℚ) ≠ 0), hk]
    congr 1
    ring
  have hq := two_zpow_pos E
  have hdiv : (n : ℚ) * 2 ^ j / 2 ^ E = ((n * 2 ^ k : ℤ) : ℚ) := by
    rw [div_eq_iff (ne_of_gt hq)]
    push_cast
    rw [hsplit]
    ring
  rw [hdiv, roundHalfEven_intCast]
  push_cast
  rw [hsplit]
  ring

theorem roundDouble_int_mul (n j : ℤ) (hj : -1074 ≤ j) (hn : |n| ≤ 2 ^ 53) :
    roundDouble ((n : ℚ) * 2 ^ j) = (n : ℚ) * 2 ^ j := by
  rcases lt_or_eq_of_le hn with hlt | heq
  · exact roundDouble_int_mul_of_lt n j hj hlt
  · obtain ⟨h, hh⟩ : ∃ h : ℤ, n = 2 * h ∧ |h| < 2 ^ 53 := by
      rcases abs_cases n with ⟨h1, -⟩ | ⟨h1, -⟩
      · exact ⟨2 ^ 52, by omega, by norm_num⟩
      · exact ⟨-2 ^ 52, by omega, by norm_num⟩
    have hx : (n : ℚ) * 2 ^ j = (h : ℚ) * 2 ^ (j + 1) := by
      rw [hh.1, zpow_add₀ (by norm_num : (2 : ℚ) ≠ 0)]
      push_cast
      ring
    rw [hx]
    exact roundDouble_int_mul_of_lt h (j + 1) (by omega) hh.2

theorem doubleExponent_eq (x : ℚ) (e : ℤ) (he1 : (2 : ℚ) ^ e ≤ |x|)
    (he2 : |x| < (2 : ℚ) ^ (e + 1)) (hmin : -1022 ≤ e) : doubleExponent x = e - 52 := by
  have hpos : 0 < |x| := lt_of_lt_of_le (two_zpow_pos e) he1
  have h1 : e ≤ Int.log 2 |x| :=
    (Int.zpow_le_iff_le_log (b := 2) (by norm_num) hpos).mp (by exact_mod_cast he1)
  have h2 : Int.log 2 |x| < e + 1 :=
    (Int.lt_zpow_iff_log_lt (b := 2) (by norm_num) hpos).mp (by exact_mod_cast he2)
  unfold doubleExponent
  rw [max_eq_left (by omega)]
  omega

/-- Rounding of a number of the binade `[2 ^ e, 2 ^ (e + 1))` that lies
nearer to `m` units in the last place than to any other multiple. -/
theorem roundDouble_eq_of_near (x : ℚ) (e m : ℤ) (he1 : (2 : ℚ) ^ e ≤ |x|)
    (he2 : |x| < (2 : ℚ) ^ (e + 1)) (hmin : -1022 ≤ e)
    (h1 : (m : ℚ) - 1 / 2 < x / 2 ^ (e - 52)) (h2 : x / 2 ^ (e - 52) < (m : ℚ) + 1 / 2) :
    roundDouble x = (m : ℚ) * 2 ^ (e - 52) := by
  unfold roundDouble
  rw [doubleExponent_eq x e he1 he2 hmin, roundHalfEven_eq_of_lt _ m h1 h2]

/-- Rounding of a number of the binade `[2 ^ e, 2 ^ (e + 1))` that lies half
way between `m` and `m + 1` units in the last place. -/
theorem roundDouble_eq_of_tie (x : ℚ) (e m : ℤ) (he1 : (2 : ℚ) ^ e ≤ |x|)
    (he2 : |x| < (2 : ℚ) ^ (e + 1)) (hmin : -1022 ≤ e)
    (htie : x / 2 ^ (e - 52) = (m : ℚ) + 1 / 2) :
    roundDouble x = ((if m % 2 = 0 then m else m + 1 : ℤ) : ℚ) * 2 ^ (e - 52) := by
  unfold roundDouble
  rw [doubleExponent_eq x e he1 he2 hmin, htie, roundHalfEven_tie]

theorem roundDouble_one : roundDouble 1 = 1 := by
  have := roundDouble_int_mul 1 0 (by norm_num) (by norm_num)
  simpa using this

/-- Exact arithmetic is the case of a rounding that changes nothing. -/
theorem isRounding_id {K : Type} [LinearOrderedField K] : IsRounding (id : K → K) where
  mono := monotone_id
  idem := fun _ => rfl
  neg := fun _ => rfl
  zero := rfl
  one := rfl
  add_self := fun _ _ _ => rfl
  sub_one := fun _ _ _ _ => rfl

/-! ### Oscillator -/

theorem mPI2_pos {K : Type} [LinearOrderedField K] : (0 : K) < mPI2 := by
  unfold mPI2 M_PI
  positivity

theorem polyBLEP_of_between {K : Type} [LinearOrderedField K] (fl : K → K) (o : Oscillator K)
    (t : K) (h1 : fl (o.mPhaseStep / mPI2) ≤ t)
    (h2 : t ≤ fl (1 - fl (o.mPhaseStep / mPI2))) : o.polyBLEP fl t = 0 := by
  unfold Oscillator.polyBLEP
  simp only
  rw [if_neg (not_lt.mpr h1), if_neg (not_lt.mpr h2)]

/-- From note `21` upwards the `unsigned` difference `note - 21` does not
wrap. -/
theorem getFrequencyFromNote_from_21 {K : Type} [LinearOrderedField K] (pow : K → K → K)
    (note : Nat) (h1 : 21 ≤ note) (h2 : note < UNSIGNED_SIZE) :
    getFrequencyFromNote pow note = 27.5 * pow 2 (((note : K) - 21) / 12) := by
  unfold getFrequencyFromNote
  unfold UNSIGNED_SIZE at h2 ⊢
  have h : (note + 2 ^ 32 - 21) % 2 ^ 32 = note - 21 := by omega
  rw [h, Nat.cast_sub h1]
  norm_num

/-- In exact arithmetic, with `0 < dt < 1 / 2`, the three pieces of `polyBLEP`
agree where they meet, so the function is continuous. -/
theorem polyBLEP_continuous {K : Type} [LinearOrderedField K] [TopologicalSpace K]
    [OrderTopology K] (o : Oscillator K) (h0 : 0 < o.mPhaseStep / mPI2)
    (h1 : o.mPhaseStep / mPI2 < 1 / 2) : Continuous (o.polyBLEP id) := by
  have hne : o.mPhaseStep / mPI2 ≠ 0 := ne_of_gt h0
  have heq : o.polyBLEP id = fun t : K =>
      if o.mPhaseStep / mPI2 ≤ t then
        (if t ≤ 1 - o.mPhaseStep / mPI2 then 0
          else (t - 1) / (o.mPhaseStep / mPI2) * ((t - 1) / (o.mPhaseStep / mPI2)) +
            (t - 1) / (o.mPhaseStep / mPI2) + (t - 1) / (o.mPhaseStep / mPI2) + 1)
      else t / (o.mPhaseStep / mPI2) + t / (o.mPhaseStep / mPI2) -
        t / (o.mPhaseStep / mPI2) * (t / (o.mPhaseStep / mPI2)) - 1 := by
    funext t
    unfold Oscillator.polyBLEP
    simp only [id]
    by_cases ht : t < o.mPhaseStep / mPI2
    · rw [if_pos ht, if_neg (not_le.mpr ht)]
    · rw [if_neg ht, if_pos (not_lt.mp ht)]
      by_cases ht2 : t > 1 - o.mPhaseStep / mPI2
      · rw [if_pos ht2, if_neg (not_le.mpr ht2)]
      · rw [if_neg ht2, if_pos (not_lt.mp ht2)]
  rw [heq]
  refine Continuous.if_le ?_ (by fun_prop) continuous_const continuous_id ?_
  · refine Continuous.if_le continuous_const (by fun_prop) continuous_id continuous_const ?_
    intro t ht
    simp only [id] at ht
    rw [ht]
    generalize o.mPhaseStep / mPI2 = dt at hne
    field_simp
  · intro t ht
    simp only [id] at ht
    rw [← ht, if_pos (by linarith)]
    generalize o.mPhaseStep / mPI2 = dt at hne
    field_simp

section RoundedLemmas

variable {K : Type} [LinearOrderedField K]

end RoundedLemmas

section OscillatorLemmas

variable {K : Type} [LinearOrderedField K] [FloorRing K]

theorem getOutput_of_inactive (fl : K → K) (SCALE : K) (o : Oscillator K)
    (h : o.mActive = false) : o.getOutput fl SCALE = (0, o) := by
  simp [Oscillator.getOutput, h]

theorem getOutputs_of_inactive (fl : K → K) (SCALE : K) (n : Nat) (o : Oscillator K)
    (h : o.mActive = false) : o.getOutputs fl SCALE n = (List.replicate n 0, o) := by
  induction n with
  | zero => rfl
  | succ k ih =>
    simp [Oscillator.getOutputs, getOutput_of_inactive fl SCALE o h, ih, List.replicate_succ]

/-- One call keeps the phase inside `[0, mPI2)` when the step is not negative
and the rounding is monotone and exact at `0`. -/
theorem getOutput_phase_range (fl : K → K) (hmono : Monotone fl) (hzero : fl 0 = 0)
    (SCALE : K) (o : Oscillator K) (hstep : 0 ≤ o.mPhaseStep) (h0 : 0 ≤ o.mPhase)
    (h1 : o.mPhase < mPI2) :
    0 ≤ (o.getOutput fl SCALE).2.mPhase ∧ (o.getOutput fl SCALE).2.mPhase < mPI2 := by
  have hsum : 0 ≤ fl (o.mPhase + o.mPhaseStep) := by
    have := hmono (add_nonneg h0 hstep)
    rwa [hzero] at this
  unfold Oscillator.getOutput
  cases hact : o.mActive
  · simp [h0, h1]
  · by_cases hwrap : fl (o.mPhase + o.mPhaseStep) ≥ mPI2
    · simp [hwrap, mPI2_pos]
    · simp only [Bool.not_true, Bool.false_eq_true, if_false, if_neg hwrap]
      exact ⟨hsum, lt_of_not_ge hwrap⟩

theorem getOutput_mPhaseStep (fl : K → K) (SCALE : K) (o : Oscillator K) :
    (o.getOutput fl SCALE).2.mPhaseStep = o.mPhaseStep := by
  unfold Oscillator.getOutput
  cases o.mActive <;> simp

theorem getOutputs_phase_range (fl : K → K) (hmono : Monotone fl) (hzero : fl 0 = 0)
    (SCALE : K) (n : Nat) (o : Oscillator K) (hstep : 0 ≤ o.mPhaseStep) (h0 : 0 ≤ o.mPhase)
    (h1 : o.mPhase < mPI2) :
    0 ≤ (o.getOutputs fl SCALE n).2.mPhase ∧ (o.getOutputs fl SCALE n).2.mPhase < mPI2 := by
  induction n generalizing o with
  | zero => exact ⟨h0, h1⟩
  | succ k ih =>
    have hr := getOutput_phase_range fl hmono hzero SCALE o hstep h0 h1
    simp only [Oscillator.getOutputs]
    exact ih (o.getOutput fl SCALE).2 (by rw [getOutput_mPhaseStep]; exact hstep) hr.1 hr.2

theorem getOutputsIn_phase_range (fl : K → K) (hmono : Monotone fl) (hzero : fl 0 = 0)
    (SCALE : K) (calls : List (OscillatorMode × Bool)) (o : Oscillator K)
    (hstep : 0 ≤ o.mPhaseStep) (h0 : 0 ≤ o.mPhase) (h1 : o.mPhase < mPI2) :
    0 ≤ (o.getOutputsIn fl SCALE calls).mPhase ∧
      (o.getOutputsIn fl SCALE calls).mPhase < mPI2 := by
  induction calls generalizing o with
  | nil => exact ⟨h0, h1⟩
  | cons call rest ih =>
    obtain ⟨mode, active⟩ := call
    have hr := getOutput_phase_range fl hmono hzero SCALE ((o.setMode mode).setActive active)
      hstep h0 h1
    simp only [Oscillator.getOutputsIn]
    exact ih _ (by rw [getOutput_mPhaseStep]; exact hstep) hr.1 hr.2

end OscillatorLemmas

/-! ### Rounding at the example states -/

theorem roundDouble_dyadic (n : ℤ) (k : ℕ) (hk : k ≤ 1074) (hn : |n| ≤ 2 ^ 53) :
    roundDouble ((n : ℚ) / 2 ^ k) = (n : ℚ) / 2 ^ k := by
  have h := roundDouble_int_mul n (-(k : ℤ)) (by omega) hn
  rw [zpow_neg, zpow_natCast] at h
  exact h

theorem roundDouble_quarter : roundDouble (1 / 4) = 1 / 4 := by
  have := roundDouble_dyadic 1 2 (by norm_num) (by norm_num)
  norm_num at this ⊢
  exact this

theorem roundDouble_half : roundDouble (1 / 2) = 1 / 2 := by
  have := roundDouble_dyadic 1 1 (by norm_num) (by norm_num)
  norm_num at this ⊢
  exact this

theorem roundDouble_three_quarters : roundDouble (3 / 4) = 3 / 4 := by
  have := roundDouble_dyadic 3 2 (by norm_num) (by norm_num)
  norm_num at this ⊢
  exact this

theorem roundDouble_two : roundDouble 2 = 2 := by
  have := roundDouble_dyadic 2 0 (by norm_num) (by norm_num)
  norm_num at this ⊢
  exact this

theorem roundDouble_neg_one : roundDouble (-1) = -1 := by
  rw [roundDouble_neg, roundDouble_one]

/-- The phase step of `sampleVoice` is a quarter of `mPI2`. -/
theorem sampleVoice_dt : roundDouble (sampleVoice.mPhaseStep / mPI2) = 1 / 4 := by
  have h : sampleVoice.mPhaseStep / mPI2 = (1 / 4 : ℚ) := by
    norm_num [sampleVoice, mPI2, M_PI]
  rw [h, roundDouble_quarter]

/-- At `halfTurnVoice` the quotient `phase / mPI2` is rounded to
`1 / 2 - 2 ^ (-54)`. -/
theorem halfTurnVoice_t :
    roundDouble ((M_PI - 1 / 2 ^ 51) / (M_PI * 2)) = 1 / 2 - 1 / 2 ^ 54 := by
  have := roundDouble_eq_of_near ((M_PI - 1 / 2 ^ 51) / (M_PI * 2)) (-2) (2 ^ 53 - 1)
    (by norm_num [abs_of_pos, M_PI]) (by norm_num [abs_of_pos, M_PI]) (by norm_num)
    (by norm_num [M_PI]) (by norm_num [M_PI])
  rw [this]
  norm_num

/-- The sum `t + 0.5` lies half way between two `double`s and is rounded to
`1`. -/
theorem halfTurnVoice_t_plus_half : roundDouble (1 / 2 - 1 / 2 ^ 54 + 0.5) = 1 := by
  have := roundDouble_eq_of_tie (1 / 2 - 1 / 2 ^ 54 + 0.5) (-1) (2 ^ 53 - 1)
    (by norm_num [abs_of_pos]) (by norm_num [abs_of_pos]) (by norm_num) (by norm_num)
  rw [this]
  norm_num

theorem halfTurnVoice_dt :
    roundDouble (halfTurnVoice.mPhaseStep / mPI2) = 6004799503160661 / 2 ^ 56 := by
  have h : halfTurnVoice.mPhaseStep / mPI2 =
      (4716158501352293 / 2 ^ 53 / (884279719003555 / 281474976710656 * 2) : ℚ) := rfl
  rw [h]
  have := roundDouble_eq_of_near
    (4716158501352293 / 2 ^ 53 / (884279719003555 / 281474976710656 * 2)) (-4)
    6004799503160661 (by norm_num [abs_of_pos]) (by norm_num [abs_of_pos]) (by norm_num)
    (by norm_num) (by norm_num)
  rw [this]
  norm_num

theorem fmod_one_one : fmod (1 : ℚ) 1 = 0 := by
  simp [fmod, trunc]

/-- `polyBLEP(0) = -1` at `halfTurnVoice`. -/
theorem halfTurnVoice_polyBLEP_zero : halfTurnVoice.polyBLEP roundDouble 0 = -1 := by
  unfold Oscillator.polyBLEP
  simp only
  rw [halfTurnVoice_dt, if_pos (by norm_num)]
  simp only [zero_div, roundDouble_zero, add_zero, mul_zero, sub_zero, zero_sub,
    roundDouble_neg_one]

/-- `polyBLEP(t) = 0` at `halfTurnVoice` for the rounded `t`. -/
theorem halfTurnVoice_polyBLEP_t :
    halfTurnVoice.polyBLEP roundDouble (1 / 2 - 1 / 2 ^ 54) = 0 := by
  apply polyBLEP_of_between
  · rw [halfTurnVoice_dt]
    norm_num
  · rw [halfTurnVoice_dt]
    have := roundDouble_monotone (show (1 / 2 : ℚ) ≤ 1 - 6004799503160661 / 2 ^ 56 by norm_num)
    rw [roundDouble_half] at this
    refine le_trans ?_ this
    norm_num

/-- The sample that the seventh call after `setFrequency(4000)` at 48 kHz
returns in SQUARE mode with gain `1 / 2` and `SCALE = 1`. -/
theorem halfTurnVoice_output :
    ((halfTurnVoice.setGain roundDouble (1 / 2)).getOutput roundDouble 1).1 = 1 / 2 := by
  have hgain : roundDouble (0.5 * (1 / 2)) = 1 / 4 := by
    rw [show (0.5 * (1 / 2) : ℚ) = 1 / 4 by norm_num, roundDouble_quarter]
  have hsquare : (if (M_PI - 1 / 2 ^ 51 : ℚ) < M_PI then (1 : ℚ) else -1) = 1 := by
    rw [if_pos (by norm_num [M_PI])]
  show roundDouble (roundDouble (roundDouble (roundDouble
      ((if (M_PI - 1 / 2 ^ 51 : ℚ) < M_PI then (1 : ℚ) else -1) +
        halfTurnVoice.polyBLEP roundDouble
          (roundDouble ((M_PI - 1 / 2 ^ 51) / (M_PI * 2)))) -
      halfTurnVoice.polyBLEP roundDouble
        (fmod (roundDouble (roundDouble ((M_PI - 1 / 2 ^ 51) / (M_PI * 2)) + 0.5)) 1)) * 1) *
      roundDouble (0.5 * (1 / 2))) = 1 / 2
  rw [hgain, hsquare, halfTurnVoice_t, halfTurnVoice_t_plus_half, fmod_one_one,
    halfTurnVoice_polyBLEP_zero, halfTurnVoice_polyBLEP_t, add_zero, roundDouble_one,
    sub_neg_eq_add, show (1 + 1 : ℚ) = 2 by norm_num, roundDouble_two, mul_one,
    roundDouble_two, show (2 * (1 / 4) : ℚ) = 1 / 2 by norm_num, roundDouble_half]

/-- At `thirdCallVoice` the exact sum of phase and step is below `mPI2`, half
way between two `double`s, and is rounded to `mPI2`. -/
theorem thirdCallVoice_sum :
    thirdCallVoice.mPhase + thirdCallVoice.mPhaseStep < mPI2 ∧
      roundDouble (thirdCallVoice.mPhase + thirdCallVoice.mPhaseStep) = mPI2 := by
  have h : thirdCallVoice.mPhase + thirdCallVoice.mPhaseStep =
      (9432317002704586 / 2 ^ 51 + 4716158501352293 / 2 ^ 51 : ℚ) := rfl
  rw [h]
  constructor
  · norm_num [mPI2, M_PI]
  · have := roundDouble_eq_of_tie (9432317002704586 / 2 ^ 51 + 4716158501352293 / 2 ^ 51) 2
      7074237752028439 (by norm_num [abs_of_pos]) (by norm_num [abs_of_pos]) (by norm_num)
      (by norm_num)
    rw [this]
    norm_num [mPI2, M_PI]

/-- At `sampleVoice` the rounded sum of phase and step is below `mPI2`. -/
theorem sampleVoice_sum : roundDouble (sampleVoice.mPhase + sampleVoice.mPhaseStep) < mPI2 := by
  have h4 : roundDouble 4 = 4 := by
    have := roundDouble_dyadic 4 0 (by norm_num) (by norm_num)
    norm_num at this ⊢
    exact this
  have := roundDouble_monotone
    (show sampleVoice.mPhase + sampleVoice.mPhaseStep ≤ 4 by norm_num [sampleVoice, mPI2, M_PI])
  rw [h4] at this
  refine lt_of_le_of_lt this ?_
  norm_num [mPI2, M_PI]

section DelayLemmas

variable {K : Type} [LinearOrderedField K]

theorem combOutput_of_lt (g : K) (D : Nat) (x : Nat → K) (m : Nat) (h : m < D) :
    combOutput g D x m = 0 := by
  rw [combOutput, dif_pos (Or.inl h)]

theorem combOutput_add (g : K) (D : Nat) (x : Nat → K) (m : Nat) (hD : 1 ≤ D) :
    combOutput g D x (m + D) = x m + g * combOutput g D x m := by
  rw [combOutput, dif_neg (by omega), Nat.add_sub_cancel]

/-- Two positions less than a buffer length apart coincide only when the
offset is the whole length. -/
theorem mod_add_ne (n j D : Nat) (h0 : 0 < j) (hj : j < D) : (n + j) % D ≠ n % D := by
  intro h
  have h1 : Nat.ModEq D (n + j) (n + 0) := by simpa [Nat.ModEq] using h
  have h2 : Nat.ModEq D j 0 := Nat.ModEq.add_left_cancel' n h1
  have h3 : D ∣ j := (Nat.modEq_zero_iff_dvd).mp h2
  have := Nat.le_of_dvd h0 h3
  omega

/-- State of a fresh delay line after `n` calls: the cursor is `n mod D` and,
read from the cursor onwards, the buffer holds the next `D` results of the
comb-filter recurrence. -/
theorem delay_after_spec (x : Nat → K) (d : Delay K) (D : Nat) (hD : 1 ≤ D)
    (hdelay : d.mDelay = D) (hcursor : d.mCounter = 0) (hbuf : d.mBuffer = List.replicate D 0)
    (n : Nat) :
    (d.after x n).mDelay = D ∧ (d.after x n).mFeedback = d.mFeedback ∧
      (d.after x n).mCounter = n % D ∧ (d.after x n).mBuffer.length = D ∧
      ∀ j : Nat, j < D →
        (d.after x n).mBuffer.getD ((n + j) % D) 0 = combOutput d.mFeedback D x (n + j) := by
  induction n with
  | zero =>
    refine ⟨hdelay, rfl, ?_, ?_, ?_⟩
    · simpa [Delay.after] using hcursor
    · simp [Delay.after, hbuf]
    · intro j hj
      have hmod : j % D = j := Nat.mod_eq_of_lt hj
      simp [Delay.after, hbuf, hmod, hj, combOutput_of_lt _ _ _ _ hj]
  | succ n ih =>
    obtain ⟨ih1, ih2, ih3, ih4, ih5⟩ := ih
    have hlt : n % D < D := Nat.mod_lt _ (by omega)
    have hread : (d.after x n).mBuffer.getD (n % D) 0 = combOutput d.mFeedback D x n := by
      simpa using ih5 0 (by omega)
    refine ⟨?_, ?_, ?_, ?_, ?_⟩
    · simpa [Delay.after, Delay.getOutput] using ih1
    · simpa [Delay.after, Delay.getOutput] using ih2
    · simp only [Delay.after, Delay.getOutput, ih1, ih3]
      exact Nat.mod_add_mod n D 1
    · simpa [Delay.after, Delay.getOutput] using ih4
    · intro j hj
      simp only [Delay.after, Delay.getOutput, ih3, ih2, hread]
      by_cases hlast : j + 1 = D
      · have hpos : (n + 1 + j) % D = n % D := by
          have : n + 1 + j = n + D := by omega
          rw [this, Nat.add_mod_right]
        have hval : n + 1 + j = n + D := by omega
        rw [hpos, hval, combOutput_add _ _ _ _ hD, List.getD_eq_getElem?_getD,
          List.getElem?_set, if_pos rfl, if_pos (by rw [ih4]; exact hlt)]
        rfl
      · have hne : n % D ≠ (n + 1 + j) % D := by
          have := mod_add_ne n (j + 1) D (by omega) (by omega)
          rw [show n + 1 + j = n + (j + 1) by omega]
          exact fun h => this h.symm
        have hold := ih5 (j + 1) (by omega)
        rw [List.getD_eq_getElem?_getD] at hold ⊢
        rw [List.getElem?_set_ne hne, show n + 1 + j = n + (j + 1) by omega]
        exact hold

/-- A fresh delay line computes the comb-filter recurrence. -/
theorem delay_outputAt_eq (x : Nat → K) (d : Delay K) (D : Nat) (hD : 1 ≤ D)
    (hdelay : d.mDelay = D) (hcursor : d.mCounter = 0) (hbuf : d.mBuffer = List.replicate D 0)
    (n : Nat) : d.outputAt x n = combOutput d.mFeedback D x n := by
  obtain ⟨-, -, h3, -, h5⟩ := delay_after_spec x d D hD hdelay hcursor hbuf n
  have := h5 0 (by omega)
  simp only [Nat.add_zero] at this
  simp only [Delay.outputAt, Delay.getOutput, h3, this]

theorem combOutput_impulse_mul (g : K) (D : Nat) (hD : 1 ≤ D) (k : Nat) :
    combOutput g D unitImpulse ((k + 1) * D) = g ^ k := by
  induction k with
  | zero =>
    have h := combOutput_add g D unitImpulse 0 hD
    rw [Nat.zero_add] at h
    rw [Nat.zero_add, Nat.one_mul, h, combOutput_of_lt g D unitImpulse 0 (by omega)]
    simp [unitImpulse]
  | succ k ih =>
    have hne : (k + 1) * D ≠ 0 := Nat.mul_ne_zero (by omega) (by omega)
    rw [show (k + 1 + 1) * D = (k + 1) * D + D by ring, combOutput_add _ _ _ _ hD, ih]
    have hx : (unitImpulse ((k + 1) * D) : K) = 0 := by
      unfold unitImpulse
      rw [if_neg hne]
    rw [hx, zero_add, pow_succ, mul_comm]

theorem combOutput_impulse_of_not_dvd (g : K) (D : Nat) (hD : 1 ≤ D) (m : Nat)
    (hm : ¬ D ∣ m) : combOutput g D unitImpulse m = 0 := by
  induction m using Nat.strong_induction_on with
  | _ m ih =>
    by_cases hlt : m < D
    · exact combOutput_of_lt _ _ _ _ hlt
    · have hsplit : m = (m - D) + D := by omega
      have hndvd : ¬ D ∣ (m - D) := by
        intro h
        apply hm
        rw [hsplit]
        exact Dvd.dvd.add h (dvd_refl D)
      have hne : m - D ≠ 0 := by
        intro h
        apply hndvd
        rw [h]
        exact dvd_zero D
      rw [hsplit, combOutput_add _ _ _ _ hD, ih (m - D) (by omega) hndvd]
      simp [unitImpulse, hne]

end DelayLemmas

/-! ## Theorems -/

/-- C1 (evaluation at a failing input): with two wait-targets `1` pending, the
`tick()` call that raises the counter to `1` erases the first of them only;
the second one is stepped over by the loop and is still in the collection
afterwards although it is `≤` the new counter. -/
theorem tick_leaves_satisfied_target :
    twoWaiters.tick.mTick = 1 ∧ twoWaiters.tick.mTickEvents = [1] ∧
      ∃ target ∈ twoWaiters.tick.mTickEvents, target ≤ twoWaiters.tick.mTick := by
  have h : twoWaiters.tick.mTick = 1 ∧ twoWaiters.tick.mTickEvents = [1] := by
    simp only [MidiSequencer.tick, twoWaiters, tickLoop_zero]
    norm_num [UNSIGNED_SIZE, tickLoopFrom]
  refine ⟨h.1, h.2, 1, ?_, ?_⟩
  · rw [h.2]; simp
  · rw [h.1]

/-- C2 (evaluation at a failing input): for note `20` the `unsigned`
difference `note - 21` wraps to `4294967295`, so with the exact power function
the frequency is `27.5 * 2 ^ (4294967295 / 12)`, which is above `27.5`, not
below it; `setNote` stores that value. -/
theorem getFrequencyFromNote_wraps_below_21 :
    getFrequencyFromNote (fun x y : ℝ => x ^ y) 20 = 27.5 * (2 : ℝ) ^ ((4294967295 : ℝ) / 12) ∧
      (27.5 : ℝ) < getFrequencyFromNote (fun x y : ℝ => x ^ y) 20 ∧
      ∀ (fl : ℝ → ℝ) (sampleRate : Nat) (o : Oscillator ℝ),
        (o.setNote fl (fun x y : ℝ => x ^ y) sampleRate 20).mFrequency =
          27.5 * (2 : ℝ) ^ ((4294967295 : ℝ) / 12) := by
  have h : getFrequencyFromNote (fun x y : ℝ => x ^ y) 20 =
      27.5 * (2 : ℝ) ^ ((4294967295 : ℝ) / 12) := by
    simp only [getFrequencyFromNote, UNSIGNED_SIZE]
    norm_num
  refine ⟨h, ?_, ?_⟩
  · rw [h]
    have h1 : (1 : ℝ) < (2 : ℝ) ^ ((4294967295 : ℝ) / 12) :=
      Real.one_lt_rpow (by norm_num) (by norm_num)
    linarith
  · intro fl sampleRate o
    simp only [Oscillator.setNote, Oscillator.setFrequency, h]

/-- C3 (evaluation at a failing input): after `setNote(20)` the stored
frequency is `27.5 * 2 ^ (4294967295 / 12)`; with the exact logarithm
`getNote()` computes `4294967295 + 21`, which is not a value of `unsigned`, so
the conversion to the return type is undefined and the call does not return
`20`. -/
theorem getNote_setNote_below_21 (fl : ℝ → ℝ) (sampleRate : Nat) (o : Oscillator ℝ) :
    (o.setNote fl (fun x y : ℝ => x ^ y) sampleRate 20).getNote Real.log = none := by
  have hlog2 : Real.log 2 ≠ 0 := by
    have := Real.log_pos (by norm_num : (1 : ℝ) < 2)
    exact ne_of_gt this
  have hfreq : getFrequencyFromNote (fun x y : ℝ => x ^ y) 20 =
      27.5 * (2 : ℝ) ^ ((4294967295 : ℝ) / 12) := by
    simp only [getFrequencyFromNote, UNSIGNED_SIZE]
    norm_num
  have hlog : Real.log (27.5 * (2 : ℝ) ^ ((4294967295 : ℝ) / 12) / 27.5) =
      (4294967295 : ℝ) / 12 * Real.log 2 := by
    rw [mul_div_assoc, mul_div_cancel₀ _ (by norm_num : (27.5 : ℝ) ≠ 0),
      Real.log_rpow (by norm_num : (0 : ℝ) < 2)]
  have hval : 12 / Real.log 2 * ((4294967295 : ℝ) / 12 * Real.log 2) + 21 =
      ((4294967316 : Int) : ℝ) := by
    field_simp
    ring
  have htrunc : trunc (((4294967316 : Int) : ℝ)) = 4294967316 := by
    unfold trunc
    rw [if_pos (by norm_num), Int.floor_intCast]
  simp only [Oscillator.getNote, Oscillator.setNote, Oscillator.setFrequency,
    getNoteFromFrequency, hfreq, hlog, hval, toUnsigned, htrunc, UNSIGNED_SIZE]
  norm_num

section OscillatorTheorems

variable {K : Type} [LinearOrderedField K] [FloorRing K]

/-- C4: an inactive oscillator returns `0` from `getOutput()` and is left as it
was, phase included; so `n` calls made while inactive return `n` zeros and
leave the oscillator unchanged, and the first call after reactivation returns
what it would have returned before them: the sample for the same phase.  This
holds whatever the rounding `fl` of the arithmetic. -/
theorem getOutput_inactive (fl : K → K) (SCALE : K) (o : Oscillator K)
    (h : o.mActive = false) :
    o.getOutput fl SCALE = (0, o) ∧
      ∀ n : Nat,
        o.getOutputs fl SCALE n = (List.replicate n 0, o) ∧
        (o.getOutputs fl SCALE n).2.mPhase = o.mPhase ∧
        ((o.getOutputs fl SCALE n).2.setActive true).getOutput fl SCALE =
          (o.setActive true).getOutput fl SCALE ∧
        (((o.getOutputs fl SCALE n).2.setActive true).getOutput fl SCALE).1 =
          fl (fl ((o.setActive true).switchValue fl * SCALE) * o.mGain) := by
  refine ⟨getOutput_of_inactive fl SCALE o h, fun n => ?_⟩
  rw [getOutputs_of_inactive fl SCALE n o h]
  refine ⟨rfl, rfl, rfl, ?_⟩
  simp [Oscillator.getOutput, Oscillator.setActive]

theorem getOutput_inactive_witness :
    (sampleVoice.setActive false).mActive = false ∧
      ((sampleVoice.setActive false).getOutput roundDouble 1 =
        (0, sampleVoice.setActive false) ∧
      ∀ n : Nat,
        (sampleVoice.setActive false).getOutputs roundDouble 1 n =
          (List.replicate n 0, sampleVoice.setActive false) ∧
        ((sampleVoice.setActive false).getOutputs roundDouble 1 n).2.mPhase =
          (sampleVoice.setActive false).mPhase ∧
        (((sampleVoice.setActive false).getOutputs roundDouble 1 n).2.setActive
            true).getOutput roundDouble 1 =
          ((sampleVoice.setActive false).setActive true).getOutput roundDouble 1 ∧
        ((((sampleVoice.setActive false).getOutputs roundDouble 1 n).2.setActive
            true).getOutput roundDouble 1).1 =
          roundDouble (roundDouble
            (((sampleVoice.setActive false).setActive true).switchValue roundDouble * 1) *
              (sampleVoice.setActive false).mGain)) :=
  ⟨rfl, getOutput_inactive roundDouble 1 (sampleVoice.setActive false) rfl⟩

/-- C5: for a frequency `f > 0` and a sample rate `sr > 0`, `setFrequency(f)`
sets `phaseStep` to the quotient `f * mPI2 / sr` (product and quotient each
rounded by `fl`); starting from a phase in `[0, mPI2)`, the phase is in
`[0, mPI2)` after any number of `getOutput()` calls, also when the mode and
the active flag are changed between the calls.  The rounding need only be
monotone and exact at `0`; `fl = id` is exact arithmetic. -/
theorem setFrequency_phase_in_range (fl : K → K) (hmono : Monotone fl) (hzero : fl 0 = 0)
    (SCALE : K) (sampleRate : Nat) (f : K) (o : Oscillator K) (hf : 0 < f)
    (hsr : 0 < sampleRate) (h0 : 0 ≤ o.mPhase) (h1 : o.mPhase < mPI2) :
    (o.setFrequency fl sampleRate f).mPhaseStep = fl (fl (f * mPI2) / (sampleRate : K)) ∧
      (∀ n : Nat,
        0 ≤ ((o.setFrequency fl sampleRate f).getOutputs fl SCALE n).2.mPhase ∧
        ((o.setFrequency fl sampleRate f).getOutputs fl SCALE n).2.mPhase < mPI2) ∧
      ∀ calls : List (OscillatorMode × Bool),
        0 ≤ ((o.setFrequency fl sampleRate f).getOutputsIn fl SCALE calls).mPhase ∧
        ((o.setFrequency fl sampleRate f).getOutputsIn fl SCALE calls).mPhase < mPI2 := by
  have hstep : 0 ≤ (o.setFrequency fl sampleRate f).mPhaseStep := by
    have hsr' : (0 : K) < (sampleRate : K) := by exact_mod_cast hsr
    have hprod : 0 ≤ fl (f * mPI2) := by
      have := hmono (le_of_lt (mul_pos hf mPI2_pos))
      rwa [hzero] at this
    have := hmono (div_nonneg hprod (le_of_lt hsr'))
    rwa [hzero] at this
  exact ⟨rfl, fun n => getOutputs_phase_range fl hmono hzero SCALE n _ hstep h0 h1,
    fun calls => getOutputsIn_phase_range fl hmono hzero SCALE calls _ hstep h0 h1⟩

theorem setFrequency_phase_in_range_witness :
    Monotone roundDouble ∧ roundDouble 0 = 0 ∧ (0 : ℚ) < 440 ∧ 0 < 48000 ∧
      0 ≤ sampleVoice.mPhase ∧ sampleVoice.mPhase < mPI2 ∧
      ((sampleVoice.setFrequency roundDouble 48000 440).mPhaseStep =
          roundDouble (roundDouble (440 * mPI2) / ((48000 : Nat) : ℚ)) ∧
      (∀ n : Nat,
        0 ≤ ((sampleVoice.setFrequency roundDouble 48000 440).getOutputs roundDouble 1
          n).2.mPhase ∧
        ((sampleVoice.setFrequency roundDouble 48000 440).getOutputs roundDouble 1
          n).2.mPhase < mPI2) ∧
      ∀ calls : List (OscillatorMode × Bool),
        0 ≤ ((sampleVoice.setFrequency roundDouble 48000 440).getOutputsIn roundDouble 1
          calls).mPhase ∧
        ((sampleVoice.setFrequency roundDouble 48000 440).getOutputsIn roundDouble 1
          calls).mPhase < mPI2) :=
  ⟨roundDouble_monotone, roundDouble_zero, by norm_num, by norm_num,
    by norm_num [sampleVoice], by norm_num [sampleVoice, mPI2, M_PI],
    setFrequency_phase_in_range roundDouble roundDouble_monotone roundDouble_zero 1 48000 440
      sampleVoice (by norm_num) (by norm_num) (by norm_num [sampleVoice])
      (by norm_num [sampleVoice, mPI2, M_PI])⟩

/-- C6: for an active oscillator with phase `p`, `t = p / mPI2` and user-set
gain `g`, `getOutput()` returns `v * SCALE * (g / 2)` where `v` is `sine(p)` in
SINE mode, `saw(p) - polyBLEP(t)` in SAW mode,
`square(p) + polyBLEP(t) - polyBLEP(fmod(t + 0.5, 1))` in SQUARE mode and
`custom(p)` in CUSTOM mode.  Every quotient, sum, difference and product is
the `double` one: the exact result rounded by `fl` (with `fl = id` the
formulas are those of exact arithmetic).  When the rounded `t + 0.5` is not
negative, the `fmod` is its fractional part `(t + 0.5) mod 1`. -/
theorem getOutput_active (fl : K → K) (SCALE g : K) (o : Oscillator K)
    (h : o.mActive = true) :
    (o.mMode = .SINE →
      ((o.setGain fl g).getOutput fl SCALE).1 =
        fl (fl (o.mSine o.mPhase * SCALE) * fl (g / 2))) ∧
    (o.mMode = .SAW →
      ((o.setGain fl g).getOutput fl SCALE).1 =
        fl (fl (fl (o.mSaw o.mPhase - o.polyBLEP fl (fl (o.mPhase / mPI2))) * SCALE) *
          fl (g / 2))) ∧
    (o.mMode = .SQUARE →
      ((o.setGain fl g).getOutput fl SCALE).1 =
        fl (fl (fl (fl (o.mSquare o.mPhase + o.polyBLEP fl (fl (o.mPhase / mPI2))) -
          o.polyBLEP fl (fmod (fl (fl (o.mPhase / mPI2) + 0.5)) 1)) * SCALE) *
          fl (g / 2))) ∧
    (o.mMode = .CUSTOM →
      ((o.setGain fl g).getOutput fl SCALE).1 =
        fl (fl (o.mCustomWaveform o.mPhase * SCALE) * fl (g / 2))) ∧
    (0 ≤ fl (fl (o.mPhase / mPI2) + 0.5) →
      fmod (fl (fl (o.mPhase / mPI2) + 0.5)) 1 =
        Int.fract (fl (fl (o.mPhase / mPI2) + 0.5))) := by
  have hhalf : (0.5 : K) * g = g / 2 := by norm_num; ring
  have hout : ((o.setGain fl g).getOutput fl SCALE).1 =
      fl (fl ((o.setGain fl g).switchValue fl * SCALE) * fl (g / 2)) := by
    simp [Oscillator.getOutput, Oscillator.setGain, h, hhalf]
  refine ⟨fun hm => ?_, fun hm => ?_, fun hm => ?_, fun hm => ?_, fun hx => ?_⟩
  · rw [hout]
    simp [Oscillator.switchValue, Oscillator.setGain, hm]
  · rw [hout]
    simp [Oscillator.switchValue, Oscillator.setGain, Oscillator.polyBLEP, hm, mPI2]
  · rw [hout]
    simp [Oscillator.switchValue, Oscillator.setGain, Oscillator.polyBLEP, hm, mPI2]
  · rw [hout]
    simp [Oscillator.switchValue, Oscillator.setGain, hm]
  · simp only [fmod, trunc, div_one, mul_one, if_pos hx, Int.fract]

theorem getOutput_active_witness :
    halfTurnVoice.mActive = true ∧
      ((halfTurnVoice.setGain roundDouble (1 / 2)).getOutput roundDouble 1).1 =
        roundDouble (roundDouble (roundDouble (roundDouble
          (halfTurnVoice.mSquare halfTurnVoice.mPhase +
            halfTurnVoice.polyBLEP roundDouble (roundDouble (halfTurnVoice.mPhase / mPI2))) -
          halfTurnVoice.polyBLEP roundDouble
            (fmod (roundDouble (roundDouble (halfTurnVoice.mPhase / mPI2) + 0.5)) 1)) * 1) *
          roundDouble (1 / 2 / 2)) ∧
      ((halfTurnVoice.setGain roundDouble (1 / 2)).getOutput roundDouble 1).1 = 1 / 2 :=
  ⟨rfl, (getOutput_active roundDouble 1 (1 / 2) halfTurnVoice rfl).2.2.1 rfl,
    halfTurnVoice_output⟩

/-- C17: one `getOutput()` call on an active oscillator with phase `p` and
phase step `s` leaves the phase at the sum `p + s` (the `double` sum: the
exact one rounded by `fl`) when that sum is below `mPI2` and at exactly `0`
when it is `≥ mPI2` (nothing of the excess is kept), and changes no other
field: the oscillator after the call is the one before it with the phase
replaced. -/
theorem getOutput_phase_step (fl : K → K) (SCALE : K) (o : Oscillator K)
    (h : o.mActive = true) :
    (fl (o.mPhase + o.mPhaseStep) < mPI2 →
      (o.getOutput fl SCALE).2 = { o with mPhase := fl (o.mPhase + o.mPhaseStep) }) ∧
    (fl (o.mPhase + o.mPhaseStep) ≥ mPI2 →
      (o.getOutput fl SCALE).2 = { o with mPhase := 0 }) ∧
    (o.getOutput fl SCALE).2 = { o with mPhase := (o.getOutput fl SCALE).2.mPhase } := by
  refine ⟨fun hlt => ?_, fun hge => ?_, ?_⟩
  · simp [Oscillator.getOutput, h, not_le.mpr hlt]
  · simp [Oscillator.getOutput, h, hge]
  · simp [Oscillator.getOutput, h]

theorem getOutput_phase_step_witness :
    sampleVoice.mActive = true ∧
      roundDouble (sampleVoice.mPhase + sampleVoice.mPhaseStep) < mPI2 ∧
      (sampleVoice.getOutput roundDouble 1).2 =
        { sampleVoice with
          mPhase := roundDouble (sampleVoice.mPhase + sampleVoice.mPhaseStep) } ∧
      thirdCallVoice.mActive = true ∧
      thirdCallVoice.mPhase + thirdCallVoice.mPhaseStep < mPI2 ∧
      roundDouble (thirdCallVoice.mPhase + thirdCallVoice.mPhaseStep) ≥ mPI2 ∧
      (thirdCallVoice.getOutput roundDouble 1).2 = { thirdCallVoice with mPhase := 0 } :=
  ⟨rfl, sampleVoice_sum,
    (getOutput_phase_step roundDouble 1 sampleVoice rfl).1 sampleVoice_sum,
    rfl, thirdCallVoice_sum.1, le_of_eq thirdCallVoice_sum.2.symm,
    (getOutput_phase_step roundDouble 1 thirdCallVoice rfl).2.1
      (le_of_eq thirdCallVoice_sum.2.symm)⟩

end OscillatorTheorems

/-- C7: with `dt = phaseStep / mPI2`, `polyBLEP(t) = 0` for every `t` with
`dt ≤ t ≤ 1 - dt`, whatever the phase step.  `dt` and `1 - dt` are the
`double` quotient and difference (exact results rounded by `fl`); for a
monotone rounding and a `t` that is a value of it, `t` may as well be compared
with the exact `1 - dt`.  With `fl = id` this is the statement in exact
arithmetic. -/
theorem polyBLEP_eq_zero {K : Type} [LinearOrderedField K] (fl : K → K) (o : Oscillator K)
    (t : K) (h1 : fl (o.mPhaseStep / mPI2) ≤ t)
    (h2 : t ≤ fl (1 - fl (o.mPhaseStep / mPI2)) ∨
      (Monotone fl ∧ fl t = t ∧ t ≤ 1 - fl (o.mPhaseStep / mPI2))) :
    o.polyBLEP fl t = 0 := by
  rcases h2 with h2 | ⟨hmono, ht, h2⟩
  · exact polyBLEP_of_between fl o t h1 h2
  · refine polyBLEP_of_between fl o t h1 ?_
    have := hmono h2
    rwa [ht] at this

theorem polyBLEP_eq_zero_witness :
    roundDouble (sampleVoice.mPhaseStep / mPI2) ≤ (1 / 2 : ℚ) ∧
      (1 / 2 : ℚ) ≤ roundDouble (1 - roundDouble (sampleVoice.mPhaseStep / mPI2)) ∧
      sampleVoice.polyBLEP roundDouble (1 / 2) = 0 ∧
      sampleVoice.mPhaseStep / mPI2 ≤ (1 / 2 : ℚ) ∧
      (1 / 2 : ℚ) ≤ 1 - sampleVoice.mPhaseStep / mPI2 ∧
      sampleVoice.polyBLEP id (1 / 2) = 0 :=
  have h1 : roundDouble (sampleVoice.mPhaseStep / mPI2) ≤ (1 / 2 : ℚ) := by
    rw [sampleVoice_dt]
    norm_num
  have h2 : (1 / 2 : ℚ) ≤ roundDouble (1 - roundDouble (sampleVoice.mPhaseStep / mPI2)) := by
    rw [sampleVoice_dt, show (1 - 1 / 4 : ℚ) = 3 / 4 by norm_num, roundDouble_three_quarters]
    norm_num
  have h3 : sampleVoice.mPhaseStep / mPI2 ≤ (1 / 2 : ℚ) := by
    norm_num [sampleVoice, mPI2, M_PI]
  have h4 : (1 / 2 : ℚ) ≤ 1 - sampleVoice.mPhaseStep / mPI2 := by
    norm_num [sampleVoice, mPI2, M_PI]
  ⟨h1, h2, polyBLEP_eq_zero roundDouble sampleVoice (1 / 2) h1 (Or.inl h2), h3, h4,
    polyBLEP_eq_zero id sampleVoice (1 / 2) h3 (Or.inl h4)⟩

/-- C8: for `0 < dt < 1 / 2` (`dt = phaseStep / mPI2`), `polyBLEP`, as a
function of exact numbers (`fl = id`), is `0` at `dt` and at `1 - dt`, equals
`2t' - t'² - 1` with `t' = t / dt` below `dt` and `t'² + 2t' + 1` with
`t' = (t - 1) / dt` above `1 - dt`, these branches tend to `0` as `t` tends to
`dt` from below and to `1 - dt` from above, and `polyBLEP` is continuous at
both points. -/
theorem polyBLEP_continuous_at_edges {K : Type} [LinearOrderedField K] [TopologicalSpace K]
    [OrderTopology K] (o : Oscillator K) (h0 : 0 < o.mPhaseStep / mPI2)
    (h1 : o.mPhaseStep / mPI2 < 1 / 2) :
    o.polyBLEP id (o.mPhaseStep / mPI2) = 0 ∧ o.polyBLEP id (1 - o.mPhaseStep / mPI2) = 0 ∧
      (∀ t : K, t < o.mPhaseStep / mPI2 →
        o.polyBLEP id t =
          2 * (t / (o.mPhaseStep / mPI2)) - (t / (o.mPhaseStep / mPI2)) ^ 2 - 1) ∧
      (∀ t : K, 1 - o.mPhaseStep / mPI2 < t →
        o.polyBLEP id t =
          ((t - 1) / (o.mPhaseStep / mPI2)) ^ 2 + 2 * ((t - 1) / (o.mPhaseStep / mPI2)) + 1) ∧
      Filter.Tendsto
        (fun t : K => 2 * (t / (o.mPhaseStep / mPI2)) - (t / (o.mPhaseStep / mPI2)) ^ 2 - 1)
        (nhdsWithin (o.mPhaseStep / mPI2) (Set.Iio (o.mPhaseStep / mPI2))) (nhds 0) ∧
      Filter.Tendsto
        (fun t : K =>
          ((t - 1) / (o.mPhaseStep / mPI2)) ^ 2 + 2 * ((t - 1) / (o.mPhaseStep / mPI2)) + 1)
        (nhdsWithin (1 - o.mPhaseStep / mPI2) (Set.Ioi (1 - o.mPhaseStep / mPI2))) (nhds 0) ∧
      ContinuousAt (o.polyBLEP id) (o.mPhaseStep / mPI2) ∧
      ContinuousAt (o.polyBLEP id) (1 - o.mPhaseStep / mPI2) := by
  have hne : o.mPhaseStep / mPI2 ≠ 0 := ne_of_gt h0
  have hlo : o.polyBLEP id (o.mPhaseStep / mPI2) = 0 :=
    polyBLEP_of_between id o _ (le_refl _) (by simp only [id]; linarith)
  have hhi : o.polyBLEP id (1 - o.mPhaseStep / mPI2) = 0 :=
    polyBLEP_of_between id o _ (by simp only [id]; linarith) (le_refl _)
  have hbelow : ∀ t : K, t < o.mPhaseStep / mPI2 →
      o.polyBLEP id t =
        2 * (t / (o.mPhaseStep / mPI2)) - (t / (o.mPhaseStep / mPI2)) ^ 2 - 1 := by
    intro t ht
    unfold Oscillator.polyBLEP
    simp only [id]
    rw [if_pos ht]
    ring
  have habove : ∀ t : K, 1 - o.mPhaseStep / mPI2 < t →
      o.polyBLEP id t =
        ((t - 1) / (o.mPhaseStep / mPI2)) ^ 2 + 2 * ((t - 1) / (o.mPhaseStep / mPI2)) + 1 := by
    intro t ht
    unfold Oscillator.polyBLEP
    simp only [id]
    rw [if_neg (by linarith), if_pos ht]
    ring
  have hcont := polyBLEP_continuous o h0 h1
  have hatlo : ContinuousAt (o.polyBLEP id) (o.mPhaseStep / mPI2) := hcont.continuousAt
  have hathi : ContinuousAt (o.polyBLEP id) (1 - o.mPhaseStep / mPI2) := hcont.continuousAt
  refine ⟨hlo, hhi, hbelow, habove, ?_, ?_, hatlo, hathi⟩
  · have h := (hatlo.tendsto).mono_left
      (nhdsWithin_le_nhds (s := Set.Iio (o.mPhaseStep / mPI2)))
    rw [hlo] at h
    refine h.congr' ?_
    filter_upwards [self_mem_nhdsWithin] with t ht
    exact hbelow t ht
  · have h := (hathi.tendsto).mono_left
      (nhdsWithin_le_nhds (s := Set.Ioi (1 - o.mPhaseStep / mPI2)))
    rw [hhi] at h
    refine h.congr' ?_
    filter_upwards [self_mem_nhdsWithin] with t ht
    exact habove t ht

theorem polyBLEP_continuous_at_edges_witness :
    (0 : ℚ) < sampleVoice.mPhaseStep / mPI2 ∧ sampleVoice.mPhaseStep / mPI2 < 1 / 2 ∧
      sampleVoice.polyBLEP id (sampleVoice.mPhaseStep / mPI2) = 0 ∧
      sampleVoice.polyBLEP id (1 - sampleVoice.mPhaseStep / mPI2) = 0 ∧
      ContinuousAt (sampleVoice.polyBLEP id) (sampleVoice.mPhaseStep / mPI2) ∧
      ContinuousAt (sampleVoice.polyBLEP id) (1 - sampleVoice.mPhaseStep / mPI2) :=
  have h := polyBLEP_continuous_at_edges sampleVoice
    (by norm_num [sampleVoice, mPI2, M_PI]) (by norm_num [sampleVoice, mPI2, M_PI])
  ⟨by norm_num [sampleVoice, mPI2, M_PI], by norm_num [sampleVoice, mPI2, M_PI],
    h.1, h.2.1, h.2.2.2.2.2.2.1, h.2.2.2.2.2.2.2⟩

/-- C9 (evaluation at failing inputs): `setBPM(90)` at `mPPQ = 240` stores
`mBPM = 90` and leaves the counters and wait-targets alone, but the two
integral divisions give `samplesPerTick = 266`, which is neither
`96000 / ((90 * 240) / 60)` nor `5760000 / (90 * 240)` (both `800 / 3`); and
`setBPM(59)` at `mPPQ = 1` divides by `(59 * 1) / 60 = 0`. -/
theorem setBPM_divides_integrally :
    defaultSequencer.setBPM 90 =
        some { defaultSequencer with mBPM := 90, mSamplesPerTick := 266 } ∧
      (266 : ℚ) ≠ 96000 / ((90 * 240 : ℚ) / 60) ∧ (266 : ℚ) ≠ 5760000 / (90 * 240) ∧
      MidiSequencer.setBPM { defaultSequencer with mPPQ := 1 } 59 = none := by
  refine ⟨?_, by norm_num, by norm_num, ?_⟩
  · simp only [MidiSequencer.setBPM, MidiSequencer.setSamplesPerTick, checkParameterRange,
      mBPMRange, defaultSequencer, UNSIGNED_SIZE]
    norm_num
  · simp only [MidiSequencer.setBPM, MidiSequencer.setSamplesPerTick, checkParameterRange,
      mBPMRange, defaultSequencer, UNSIGNED_SIZE]
    norm_num

section DelayTheorems

variable {K : Type} [LinearOrderedField K]

/-- C14: a delay line with feedback `0`, delay length `D ≥ 1`, cursor `0` and
a buffer of `D` zeros returns `0` from its calls number `n < D` and the input
`x (n - D)` from call number `n ≥ D`, for every input sequence `x`; its cursor
is below `D` after any number of calls. -/
theorem delay_without_feedback (x : Nat → K) (d : Delay K) (D : Nat) (hD : 1 ≤ D)
    (hfeedback : d.mFeedback = 0) (hdelay : d.mDelay = D) (hcursor : d.mCounter = 0)
    (hbuf : d.mBuffer = List.replicate D 0) (n : Nat) :
    (n < D → d.outputAt x n = 0) ∧ (D ≤ n → d.outputAt x n = x (n - D)) ∧
      (d.after x n).mCounter < D := by
  have hout := delay_outputAt_eq x d D hD hdelay hcursor hbuf n
  refine ⟨fun hn => ?_, fun hn => ?_, ?_⟩
  · rw [hout, combOutput_of_lt _ _ _ _ hn]
  · have hsplit : n = (n - D) + D := by omega
    rw [hout, hfeedback]
    conv_lhs => rw [hsplit]
    rw [combOutput_add _ _ _ _ hD, zero_mul, add_zero]
  · rw [(delay_after_spec x d D hD hdelay hcursor hbuf n).2.2.1]
    exact Nat.mod_lt _ (by omega)

theorem delay_without_feedback_witness :
    (freshDelay 3 (0 : ℚ)).outputAt (fun i => (i : ℚ) + 1) 2 = 0 ∧
      (freshDelay 3 (0 : ℚ)).outputAt (fun i => (i : ℚ) + 1) 4 = ((1 : Nat) : ℚ) + 1 ∧
      ((freshDelay 3 (0 : ℚ)).after (fun i => (i : ℚ) + 1) 4).mCounter < 3 :=
  ⟨(delay_without_feedback (fun i => (i : ℚ) + 1) (freshDelay 3 0) 3 (by decide) rfl rfl rfl
      rfl 2).1 (by decide),
    (delay_without_feedback (fun i => (i : ℚ) + 1) (freshDelay 3 0) 3 (by decide) rfl rfl rfl
      rfl 4).2.1 (by decide),
    (delay_without_feedback (fun i => (i : ℚ) + 1) (freshDelay 3 0) 3 (by decide) rfl rfl rfl
      rfl 4).2.2⟩

/-- C15 (counterexample): with feedback `1 / 2` and delay length `2` the unit
impulse comes back at sample `1 * 2` with amplitude `1`, not `(1 / 2) ^ 1`. -/
theorem delay_impulse_first_echo :
    (freshDelay 2 (1 / 2 : ℚ)).outputAt unitImpulse (1 * 2) = 1 ∧
      (freshDelay 2 (1 / 2 : ℚ)).outputAt unitImpulse (1 * 2) ≠ (1 / 2 : ℚ) ^ 1 := by
  have h : (freshDelay 2 (1 / 2 : ℚ)).outputAt unitImpulse (1 * 2) = 1 := by
    simp [Delay.outputAt, Delay.after, Delay.getOutput, freshDelay, unitImpulse]
  rw [h]
  norm_num

/-- C15 (amended): a delay line with feedback `g`, delay length `D ≥ 1`, cursor
`0` and a buffer of `D` zeros, fed the unit impulse, returns `g ^ (k - 1)` at
sample `k * D` for every `k ≥ 1`, and `0` at sample `0` and at every sample
that is not a multiple of `D`. -/
theorem delay_impulse_response (d : Delay K) (D : Nat) (hD : 1 ≤ D) (hdelay : d.mDelay = D)
    (hcursor : d.mCounter = 0) (hbuf : d.mBuffer = List.replicate D 0) :
    (∀ k : Nat, 1 ≤ k → d.outputAt unitImpulse (k * D) = d.mFeedback ^ (k - 1)) ∧
      d.outputAt unitImpulse 0 = 0 ∧
      ∀ n : Nat, ¬ D ∣ n → d.outputAt unitImpulse n = 0 := by
  refine ⟨fun k hk => ?_, ?_, fun n hn => ?_⟩
  · obtain ⟨j, rfl⟩ : ∃ j, k = j + 1 := ⟨k - 1, by omega⟩
    rw [delay_outputAt_eq unitImpulse d D hD hdelay hcursor hbuf,
      combOutput_impulse_mul _ _ hD, Nat.add_sub_cancel]
  · rw [delay_outputAt_eq unitImpulse d D hD hdelay hcursor hbuf,
      combOutput_of_lt _ _ _ _ (by omega)]
  · rw [delay_outputAt_eq unitImpulse d D hD hdelay hcursor hbuf,
      combOutput_impulse_of_not_dvd _ _ hD _ hn]

theorem delay_impulse_response_witness :
    (freshDelay 2 (1 / 2 : ℚ)).outputAt unitImpulse (3 * 2) = (1 / 2 : ℚ) ^ (3 - 1) ∧
      (freshDelay 2 (1 / 2 : ℚ)).outputAt unitImpulse 0 = 0 ∧
      (freshDelay 2 (1 / 2 : ℚ)).outputAt unitImpulse 5 = 0 :=
  ⟨(delay_impulse_response (freshDelay 2 (1 / 2 : ℚ)) 2 (by decide) rfl rfl rfl).1 3
      (by decide),
    (delay_impulse_response (freshDelay 2 (1 / 2 : ℚ)) 2 (by decide) rfl rfl rfl).2.1,
    (delay_impulse_response (freshDelay 2 (1 / 2 : ℚ)) 2 (by decide) rfl rfl rfl).2.2 5
      (by decide)⟩

end DelayTheorems

/-- C12 (counterexample): at the largest `unsigned` value of the tick counter
the `tick()` call that completes a tick wraps the counter to `0`, which is
below the old value and is neither the old value nor the old value plus one. -/
theorem tick_counter_wraps :
    lastTick.tick.mTick = 0 ∧ lastTick.tick.mTick < lastTick.mTick ∧
      ¬ (lastTick.tick.mTick = lastTick.mTick ∨ lastTick.tick.mTick = lastTick.mTick + 1) := by
  have h : lastTick.tick.mTick = 0 := by
    simp only [MidiSequencer.tick, lastTick, UNSIGNED_SIZE]
    norm_num
  rw [h]
  simp [lastTick]

/-- C12 (amended): for every state whose tick counter is below the largest
`unsigned` value, the counter after `tick()` is the old value or the old value
plus one, so it does not decrease. -/
theorem tick_counter_step (s : MidiSequencer) (h : s.mTick + 1 < UNSIGNED_SIZE) :
    (s.tick.mTick = s.mTick ∨ s.tick.mTick = s.mTick + 1) ∧ s.mTick ≤ s.tick.mTick := by
  have hmod : (s.mTick + 1) % UNSIGNED_SIZE = s.mTick + 1 := Nat.mod_eq_of_lt h
  rcases tick_mTick_cases s with h1 | h1
  · exact ⟨Or.inl h1, by omega⟩
  · rw [hmod] at h1
    exact ⟨Or.inr h1, by omega⟩

theorem tick_counter_step_witness :
    twoWaiters.mTick + 1 < UNSIGNED_SIZE ∧
      ((twoWaiters.tick.mTick = twoWaiters.mTick ∨
          twoWaiters.tick.mTick = twoWaiters.mTick + 1) ∧
        twoWaiters.mTick ≤ twoWaiters.tick.mTick) :=
  ⟨by decide, tick_counter_step twoWaiters (by decide)⟩

/-- C13: `setTick(n)` stores `n` in the tick counter, for every `n`, and
leaves the wait-targets, `sampleTime`, BPM, PPQ and `samplesPerTick` as they
were; it makes no `notify_all()` call on the condition variable, so no
wait-target is removed and no waiter is notified.  (A `tick()` call that
erases a wait-target does notify: it raises the count of `notify_all()` calls
by the number of erased targets.) -/
theorem setTick_frame (s : MidiSequencer) (n : Nat) :
    (s.setTick n).mTick = n ∧ (s.setTick n).getTick = n ∧
      (s.setTick n).mCondition = s.mCondition ∧
      (s.setTick n).mTickEvents = s.mTickEvents ∧
      (s.setTick n).mSampleTime = s.mSampleTime ∧ (s.setTick n).mBPM = s.mBPM ∧
      (s.setTick n).mPPQ = s.mPPQ ∧ (s.setTick n).mSamplesPerTick = s.mSamplesPerTick ∧
      (s.setTick n).setTick s.mTick = s ∧
      twoWaiters.tick.mCondition = twoWaiters.mCondition + 1 ∧
      (twoWaiters.setTick 1).mCondition = twoWaiters.mCondition := by
  refine ⟨rfl, rfl, rfl, rfl, rfl, rfl, rfl, rfl, rfl, ?_, rfl⟩
  have h := tick_mCondition twoWaiters
  have hev : twoWaiters.tick.mTickEvents = [1] := by
    simp only [MidiSequencer.tick, twoWaiters, tickLoop_zero]
    norm_num [UNSIGNED_SIZE, tickLoopFrom]
  rw [hev] at h
  simp only [twoWaiters, List.length_cons, List.length_nil] at h ⊢
  omega

/-- C16: with a whole number `s` of samples per tick and `sampleTime = 0` at
the start, and no counter wrapping during `n` calls of `tick()`, after each
number `k ≤ n` of calls the tick counter has advanced by `k / (s + 1)` and
`sampleTime` is `k mod (s + 1)`, hence at most `s`; the next call advances
the counter exactly when it makes `sampleTime` exceed `s`. -/
theorem ticks_advance (st : MidiSequencer) (s n : Nat) (hspt : st.mSamplesPerTick = (s : ℚ))
    (hzero : st.mSampleTime = 0) (hsample : min n (s + 1) < UNSIGNED_SIZE)
    (htick : st.mTick + n / (s + 1) < UNSIGNED_SIZE) :
    ∀ k : Nat, k ≤ n →
      (st.ticks k).mTick = st.mTick + k / (s + 1) ∧
      (st.ticks k).mSampleTime = k % (s + 1) ∧
      (st.ticks k).mSampleTime ≤ s ∧
      (k < n →
        ((st.ticks (k + 1)).mTick = (st.ticks k).mTick + 1 ↔
          (st.ticks k).mSampleTime + 1 > s) ∧
        ((st.ticks (k + 1)).mTick = (st.ticks k).mTick ↔
          (st.ticks k).mSampleTime + 1 ≤ s)) := by
  intro k hk
  have hmono : ∀ j : Nat, j ≤ n → min j (s + 1) < UNSIGNED_SIZE ∧
      st.mTick + j / (s + 1) < UNSIGNED_SIZE := by
    intro j hj
    have hdiv : j / (s + 1) ≤ n / (s + 1) := Nat.div_le_div_right hj
    constructor
    · have : min j (s + 1) ≤ min n (s + 1) := min_le_min_right _ hj
      omega
    · omega
  obtain ⟨h1, h2, -⟩ := ticks_counters st s hspt hzero k (hmono k hk).1 (hmono k hk).2
  have hr : k % (s + 1) < s + 1 := Nat.mod_lt _ (by omega)
  refine ⟨h1, h2, by omega, fun hlt => ?_⟩
  obtain ⟨g1, -, -⟩ :=
    ticks_counters st s hspt hzero (k + 1) (hmono (k + 1) hlt).1 (hmono (k + 1) hlt).2
  rw [g1, h1, h2]
  by_cases hfull : k % (s + 1) = s
  · have := (succ_div_mod_of_eq k s hfull).1
    constructor <;> constructor <;> intro <;> omega
  · have := (succ_div_mod_of_lt k s (by omega)).1
    constructor <;> constructor <;> intro <;> omega

theorem ticks_advance_witness :
    (defaultSequencer.ticks 482).mTick = defaultSequencer.mTick + 482 / (240 + 1) ∧
      (defaultSequencer.ticks 482).mSampleTime = 482 % (240 + 1) ∧
      (defaultSequencer.ticks 482).mSampleTime ≤ 240 :=
  have h := ticks_advance defaultSequencer 240 482 (by norm_num [defaultSequencer]) rfl
    (by norm_num [UNSIGNED_SIZE]) (by norm_num [UNSIGNED_SIZE, defaultSequencer]) 482
    (le_refl _)
  ⟨h.1, h.2.1, h.2.2.1⟩

/-- C18 (evaluation at a failing input): `setPPQ(1)` at the default BPM `100`
succeeds, and `setBPM(1)` after it, both arguments being inside `1..1000`,
computes the inner quotient `(1 * 1) / 60 = 0` and divides `96000` by it. -/
theorem setBPM_in_range_divides_by_zero :
    defaultSequencer.setPPQ 1 =
        some { defaultSequencer with mPPQ := 1, mSamplesPerTick := 96000 } ∧
      MidiSequencer.setBPM { defaultSequencer with mPPQ := 1, mSamplesPerTick := 96000 } 1 =
        none ∧
      checkParameterRange 1 mBPMRange = 1 ∧ checkParameterRange 1 mPPQRange = 1 ∧
      ((1 * 1) % UNSIGNED_SIZE) / 60 = 0 := by
  refine ⟨?_, ?_, by decide, by decide, by decide⟩
  · simp only [MidiSequencer.setPPQ, MidiSequencer.setSamplesPerTick, checkParameterRange,
      mPPQRange, defaultSequencer, UNSIGNED_SIZE]
    norm_num
  · simp only [MidiSequencer.setBPM, MidiSequencer.setSamplesPerTick, checkParameterRange,
      mBPMRange, defaultSequencer, UNSIGNED_SIZE]
    norm_num

/-- C19: for every scheduler state the wait-targets after `tick()` form a
subsequence of those before it (order kept, no multiplicity increased), the
targets taken out are all `≤` the new tick counter, and a call that leaves
the counter as it was leaves the collection as it was. -/
theorem tick_events_sublist (s : MidiSequencer) :
    s.tick.mTickEvents.Sublist s.mTickEvents ∧
      (∀ target : Nat, s.tick.mTickEvents.count target ≤ s.mTickEvents.count target) ∧
      (∃ removed : List Nat,
        s.mTickEvents.Perm (s.tick.mTickEvents ++ removed) ∧
        ∀ target ∈ removed, target ≤ s.tick.mTick) ∧
      (s.tick.mTick = s.mTick → s.tick.mTickEvents = s.mTickEvents) := by
  have hsub : s.tick.mTickEvents.Sublist s.mTickEvents ∧
      ∃ removed : List Nat,
        s.mTickEvents.Perm (s.tick.mTickEvents ++ removed) ∧
        ∀ target ∈ removed, target ≤ s.tick.mTick := by
    by_cases h : (((s.mSampleTime + 1) % UNSIGNED_SIZE : Nat) : ℚ) > s.mSamplesPerTick
    · obtain ⟨h1, -, -, h4⟩ := tick_of_exceeds s h
      rw [h4, h1, tickLoop_zero]
      exact ⟨tickLoopFrom_sublist _ _, tickLoopFrom_removed _ _⟩
    · obtain ⟨-, -, -, h4⟩ := tick_of_not_exceeds s h
      rw [h4]
      exact ⟨List.Sublist.refl _, [], by simp, by simp⟩
  refine ⟨hsub.1, fun target => hsub.1.count_le target, hsub.2, fun hsame => ?_⟩
  rcases tick_cases s with h | h
  · exact h.2.2
  · exfalso
    have h2 := h.2
    rw [hsame] at h2
    unfold UNSIGNED_SIZE at h2
    omega

end tsal
